import Mathlib

/-!
HashMap: Robin Hood open addressing with backward-shift deletion.

A shallow embedding of `src/hash_map.h` and the properties of its public operations.

Modelling conventions.

* `size_t` values are natural numbers.  Every index and counter of the program is bounded by
  `capacity_`, the length of the two allocated vectors, so no unsigned wrap-around occurs.
* `std::vector` is `List`; `v[i]` is `List.getD` (a read outside the vector, undefined in the
  source, reads `false` or the default pair) and `v[i] = x` is `List.set`.
* A default-constructed key or value is `default`.
* An iterator is represented by its `bucket_id_`; the table it refers to is the table it was
  obtained from.  `end()` is the bucket id `capacity_`.
* The `while` loops of `insert`, `erase` and `find` have no bound in the source.  Each loop is a
  function with a fuel argument that counts loop iterations; `none` means that the fuel ran out
  before the loop was left.  The recursion `insert → CheckMemoryLimit → Reallocation → insert`
  consumes one unit of the same fuel per nesting level.
* `size_ > capacity_ * LOAD_FACTOR` compares with the `double` constant `0.42`.  It is modelled
  in exact arithmetic as `21 * capacity_ < 50 * size_`.  For the capacities `4 * 2 ^ n` below
  `2 ^ 56` the comparison in `double` and the exact one agree at every size.
-/

/-- The members of `HashMap<KeyType, ValueType, Hash>`. -/
structure HashMap (K V : Type) where
  capacity_ : Nat
  size_ : Nat
  is_busy_ : List Bool
  data_ : List (K × V)
  hasher_ : K → Nat

/-- How the `while` loop of `insert` is left: by the `return` at a slot holding an equal key, or
by reaching a slot that is not busy, with the element carried at that moment. -/
inductive ProbeExit (K V : Type) where
  | returned (t : HashMap K V)
  | vacant (t : HashMap K V) (index : Nat) (element : K × V)

namespace HashMap

variable {K V : Type}

/-- The constant `BEGIN_CAPACITY`. -/
def BEGIN_CAPACITY : Nat := 4

/-- The test `size > capacity * LOAD_FACTOR` with `LOAD_FACTOR = 0.42`, in exact arithmetic. -/
def exceedsLoad (size capacity : Nat) : Bool := decide (21 * capacity < 50 * size)

/-- Read `is_busy_[i]`. -/
def busy (t : HashMap K V) (i : Nat) : Bool := t.is_busy_.getD i false

/-- Read `data_[i]`. -/
def slot [Inhabited K] [Inhabited V] (t : HashMap K V) (i : Nat) : K × V := t.data_.getD i default

/-- The constructor `HashMap(const Hash &hasher)`. -/
def construct [Inhabited K] [Inhabited V] (hasher : K → Nat) : HashMap K V :=
  { capacity_ := BEGIN_CAPACITY
    size_ := 0
    is_busy_ := List.replicate BEGIN_CAPACITY false
    data_ := List.replicate BEGIN_CAPACITY default
    hasher_ := hasher }

/-- The method `empty()`. -/
def empty (t : HashMap K V) : Bool := decide (t.size_ = 0)

/-- The method `size()`. -/
def size (t : HashMap K V) : Nat := t.size_

/-- The method `DistanceToHash(key, cur_index)`. -/
def DistanceToHash (t : HashMap K V) (key : K) (cur_index : Nat) : Nat :=
  let hash_index := t.hasher_ key % t.capacity_
  if cur_index ≥ hash_index then cur_index - hash_index
  else cur_index + t.capacity_ - hash_index

/-- The `while (is_busy_[index])` loop of `insert`, started at `index` with `element` in hand. -/
def insertLoop [DecidableEq K] [Inhabited K] [Inhabited V] :
    Nat → HashMap K V → K × V → Nat → Option (ProbeExit K V)
  | 0, _, _, _ => none
  | fuel + 1, t, element, index =>
    if t.busy index then
      if element.1 = (t.slot index).1 then
        some (ProbeExit.returned t)
      else if t.DistanceToHash element.1 index > t.DistanceToHash (t.slot index).1 index then
        insertLoop fuel { t with data_ := t.data_.set index element } (t.slot index)
          ((index + 1) % t.capacity_)
      else
        insertLoop fuel t element ((index + 1) % t.capacity_)
    else
      some (ProbeExit.vacant t index element)

/-- The first loop of `Reallocation`: the vector `elements` of length `size_`, filled from the
front with the pairs of the busy slots in slot order.  A write `elements[last_index++] = ...`
beyond the end of the vector, undefined in the source, leaves the vector as it is. -/
def Reallocation_elements [Inhabited K] [Inhabited V] (t : HashMap K V) : List (K × V) :=
  ((List.range t.capacity_).foldl
    (fun (acc : List (K × V) × Nat) i =>
      if t.busy i then (acc.1.set acc.2 (t.slot i), acc.2 + 1) else acc)
    (List.replicate t.size_ default, 0)).1

/-- The method `Reallocation()`.  The calls `insert(element)` go through `ins`. -/
def Reallocation [Inhabited K] [Inhabited V]
    (ins : HashMap K V → K × V → Option (HashMap K V)) (t : HashMap K V) :
    Option (HashMap K V) :=
  let elements := t.Reallocation_elements
  let t1 : HashMap K V :=
    { t with
      capacity_ := t.capacity_ * 2
      size_ := 0
      data_ := List.replicate (t.capacity_ * 2) default
      is_busy_ := List.replicate (t.capacity_ * 2) false }
  elements.foldlM ins t1

/-- The method `CheckMemoryLimit()`. -/
def CheckMemoryLimit [Inhabited K] [Inhabited V]
    (ins : HashMap K V → K × V → Option (HashMap K V)) (t : HashMap K V) :
    Option (HashMap K V) :=
  if exceedsLoad t.size_ t.capacity_ then Reallocation ins t else some t

/-- The method `insert(element)`. -/
def insert [DecidableEq K] [Inhabited K] [Inhabited V] :
    Nat → HashMap K V → K × V → Option (HashMap K V)
  | 0, _, _ => none
  | fuel + 1, t, element =>
    match insertLoop (fuel + 1) t element (t.hasher_ element.1 % t.capacity_) with
    | none => none
    | some (ProbeExit.returned t1) => some t1
    | some (ProbeExit.vacant t1 index element1) =>
      CheckMemoryLimit (fun m e => insert fuel m e)
        { t1 with
          is_busy_ := t1.is_busy_.set index true
          data_ := t1.data_.set index element1
          size_ := t1.size_ + 1 }

/-- The first loop of `erase`: the table, the final `index` and the flag `deleted`. -/
def eraseLoop [DecidableEq K] [Inhabited K] [Inhabited V] :
    Nat → HashMap K V → K → Nat → Option (HashMap K V × Nat × Bool)
  | 0, _, _, _ => none
  | fuel + 1, t, key, index =>
    if t.busy index then
      if key = (t.slot index).1 then
        some ({ t with is_busy_ := t.is_busy_.set index false }, index, true)
      else
        eraseLoop fuel t key ((index + 1) % t.capacity_)
    else
      some (t, index, false)

/-- The second loop of `erase`: the backward shift. -/
def shiftLoop [Inhabited K] [Inhabited V] :
    Nat → HashMap K V → Nat → Nat → Option (HashMap K V)
  | 0, _, _, _ => none
  | fuel + 1, t, index, next_index =>
    if t.busy next_index ∧ t.DistanceToHash (t.slot next_index).1 next_index > 0 then
      shiftLoop fuel
        { t with
          data_ := t.data_.set index (t.slot next_index)
          is_busy_ := (t.is_busy_.set index true).set next_index false }
        next_index ((next_index + 1) % t.capacity_)
    else
      some t

/-- The method `erase(key)`.  The decrement `--size_` is truncated subtraction: it is executed
only after a busy slot has been found. -/
def erase [DecidableEq K] [Inhabited K] [Inhabited V]
    (fuel : Nat) (t : HashMap K V) (key : K) : Option (HashMap K V) :=
  match eraseLoop fuel t key (t.hasher_ key % t.capacity_) with
  | none => none
  | some (t1, index, deleted) =>
    if deleted then
      shiftLoop fuel { t1 with size_ := t1.size_ - 1 } index ((index + 1) % t1.capacity_)
    else
      some t1

/-- The method `end()`: the bucket id of the end iterator. -/
def end_ (t : HashMap K V) : Nat := t.capacity_

/-- The loop `while (index < capacity_ && !is_busy_[index]) ++index`, which runs at most
`capacity_ - index` times; `n` bounds the number of iterations. -/
def skipFree (t : HashMap K V) : Nat → Nat → Nat
  | 0, index => index
  | n + 1, index =>
    if index < t.capacity_ ∧ ¬ t.busy index then skipFree t n (index + 1) else index

/-- The method `begin()`: the bucket id of the returned iterator. -/
def begin (t : HashMap K V) : Nat := skipFree t t.capacity_ 0

/-- The iterator's `operator++`, as a map on bucket ids. -/
def next (t : HashMap K V) (bucket_id : Nat) : Nat :=
  skipFree t (t.capacity_ - (bucket_id + 1)) (bucket_id + 1)

/-- The loop of `find`, started at `index`. -/
def findLoop [DecidableEq K] [Inhabited K] [Inhabited V] :
    Nat → HashMap K V → K → Nat → Option Nat
  | 0, _, _, _ => none
  | fuel + 1, t, key, index =>
    if t.busy index then
      if key = (t.slot index).1 then some index
      else findLoop fuel t key ((index + 1) % t.capacity_)
    else
      some t.end_

/-- The method `find(key)`, in both its versions: the bucket id of the returned iterator. -/
def find [DecidableEq K] [Inhabited K] [Inhabited V]
    (fuel : Nat) (t : HashMap K V) (key : K) : Option Nat :=
  findLoop fuel t key (t.hasher_ key % t.capacity_)

/-- The method `operator[](key)`: the table afterwards and the bucket id whose value the returned
reference denotes. -/
def operator_index [DecidableEq K] [Inhabited K] [Inhabited V]
    (fuel : Nat) (t : HashMap K V) (key : K) : Option (HashMap K V × Nat) :=
  match find fuel t key with
  | none => none
  | some iterator =>
    match (if iterator = t.end_ then insert fuel t (key, default) else some t) with
    | none => none
    | some t1 =>
      match find fuel t1 key with
      | none => none
      | some found => some (t1, found)

/-- The method `at(key)`, which is `const`: the value, or the exception `std::out_of_range`. -/
def at_ [DecidableEq K] [Inhabited K] [Inhabited V]
    (fuel : Nat) (t : HashMap K V) (key : K) : Option (Except String V) :=
  match find fuel t key with
  | none => none
  | some iterator =>
    if iterator = t.end_ then some (Except.error "needed key not found in hash_map")
    else some (Except.ok (t.slot iterator).2)

/-- The method `clear()`. -/
def clear [Inhabited K] [Inhabited V] (t : HashMap K V) : HashMap K V :=
  { t with
    size_ := 0
    capacity_ := BEGIN_CAPACITY
    data_ := List.replicate BEGIN_CAPACITY default
    is_busy_ := List.replicate BEGIN_CAPACITY false }

/-- A write through the reference that `operator[]` returns, or through `it->second` for an
iterator `it` at `bucket_id`: the assignment `data_[bucket_id].second = value`. -/
def assign [Inhabited K] [Inhabited V] (t : HashMap K V) (bucket_id : Nat) (value : V) :
    HashMap K V :=
  { t with data_ := t.data_.set bucket_id ((t.slot bucket_id).1, value) }

/-- The constructors `HashMap(Iterator first, Iterator last, const Hash &hasher)` and
`HashMap(std::initializer_list<...> init_list, const Hash &hasher)`: both delegate to
`HashMap(hasher)` and call `insert` on the elements in order. -/
def construct_from [DecidableEq K] [Inhabited K] [Inhabited V]
    (fuel : Nat) (hasher : K → Nat) (elements : List (K × V)) : Option (HashMap K V) :=
  elements.foldlM (fun m element => insert fuel m element) (construct hasher)

/-- The loop `for (size_t i = 0; i < capacity_; ++i)` of the copy constructor and of
`operator=`, run on the two newly allocated vectors: the occupancy markers and the pairs. -/
def copy_slots [Inhabited K] [Inhabited V] (other : HashMap K V) : List Bool × List (K × V) :=
  (List.range other.capacity_).foldl
    (fun (acc : List Bool × List (K × V)) i =>
      if other.busy i then (acc.1.set i true, acc.2.set i (other.slot i)) else acc)
    (List.replicate other.capacity_ false, List.replicate other.capacity_ default)

/-- The copy constructor `HashMap(const HashMap &other)`. -/
def copy [Inhabited K] [Inhabited V] (other : HashMap K V) : HashMap K V :=
  { hasher_ := other.hasher_
    capacity_ := other.capacity_
    size_ := other.size_
    data_ := other.copy_slots.2
    is_busy_ := other.copy_slots.1 }

/-- The method `operator=(const HashMap &other)`; `same_object` is the outcome of the test
`this == &other`.  Its other branch has the statements of the copy constructor. -/
def operator_assign [Inhabited K] [Inhabited V] (this other : HashMap K V)
    (same_object : Bool) : HashMap K V :=
  if same_object then this
  else
    { hasher_ := other.hasher_
      capacity_ := other.capacity_
      size_ := other.size_
      data_ := other.copy_slots.2
      is_busy_ := other.copy_slots.1 }

/-! ## Specification vocabulary -/

/-- Forward distance from `a` to `b` on the ring of `c` indices. -/
def fwd (c a b : Nat) : Nat := if b ≥ a then b - a else b + c - a

/-- Probe distance of the resident of slot `i`: how far `i` lies from the ideal slot of the key
stored there. -/
def probeDist [Inhabited K] [Inhabited V] (t : HashMap K V) (i : Nat) : Nat :=
  t.DistanceToHash (t.slot i).1 i

/-- Some occupied slot of the table holds the pair `kv`. -/
def Holds [Inhabited K] [Inhabited V] (t : HashMap K V) (kv : K × V) : Prop :=
  ∃ i, i < t.capacity_ ∧ t.busy i = true ∧ t.slot i = kv

/-- Some occupied slot of the table holds the key `k`. -/
def Present [Inhabited K] [Inhabited V] (t : HashMap K V) (k : K) : Prop :=
  ∃ i, i < t.capacity_ ∧ t.busy i = true ∧ (t.slot i).1 = k

/-- Both vectors have `capacity_` entries. -/
structure WF (t : HashMap K V) : Prop where
  busy_len : t.is_busy_.length = t.capacity_
  data_len : t.data_.length = t.capacity_

/-- Uniqueness: two occupied slots with equal keys are the same slot. -/
def Unique [Inhabited K] [Inhabited V] (t : HashMap K V) : Prop :=
  ∀ i j, i < t.capacity_ → j < t.capacity_ → t.busy i = true → t.busy j = true →
    (t.slot i).1 = (t.slot j).1 → i = j

/-- The local Robin Hood condition at the pair of slots `i`, `(i + 1) % capacity_`: a resident of
the successor slot that is not at home has an occupied predecessor whose resident is at most one
step closer to home. -/
def OrderedAt [Inhabited K] [Inhabited V] (t : HashMap K V) (i : Nat) : Prop :=
  t.busy ((i + 1) % t.capacity_) = true → 0 < t.probeDist ((i + 1) % t.capacity_) →
    t.busy i = true ∧ t.probeDist ((i + 1) % t.capacity_) ≤ t.probeDist i + 1

/-- The local Robin Hood condition at every index. -/
def Ordered [Inhabited K] [Inhabited V] (t : HashMap K V) : Prop :=
  ∀ i, i < t.capacity_ → t.OrderedAt i

/-- The structural invariant of the table, without the load bound. -/
structure Core [Inhabited K] [Inhabited V] (t : HashMap K V) : Prop where
  wf : t.WF
  cap_ge : 4 ≤ t.capacity_
  size_eq : t.size_ = t.is_busy_.count true
  uniq : t.Unique
  ord : t.Ordered

/-- The invariant of the table between two calls of its public methods. -/
structure Inv [Inhabited K] [Inhabited V] (t : HashMap K V) : Prop where
  core : t.Core
  load : 50 * t.size_ ≤ 21 * t.capacity_

/-- The invariant of the loop of `insert` at `index` with `element` in hand. -/
structure InsInv [Inhabited K] [Inhabited V] (t : HashMap K V) (element : K × V) (index : Nat) :
    Prop where
  wf : t.WF
  cap_ge : 4 ≤ t.capacity_
  idx : index < t.capacity_
  uniq : t.Unique
  fresh : ∀ j, j < t.capacity_ → t.busy j = true → (t.slot j).1 ≠ element.1
  ord : t.Ordered
  carried : t.DistanceToHash element.1 index = 0 ∨
    ∃ p, p < t.capacity_ ∧ (p + 1) % t.capacity_ = index ∧ t.busy p = true ∧
      t.DistanceToHash element.1 index ≤ t.probeDist p + 1

/-- The invariant of the backward-shift loop of `erase` with the hole at `index`. -/
structure ShiftInv [Inhabited K] [Inhabited V] (t : HashMap K V) (index : Nat) : Prop where
  wf : t.WF
  cap_ge : 4 ≤ t.capacity_
  idx : index < t.capacity_
  hole : t.busy index = false
  uniq : t.Unique
  ord : ∀ j, j < t.capacity_ → j ≠ index → t.OrderedAt j
  gap : t.busy ((index + 1) % t.capacity_) = true → 2 ≤ t.probeDist ((index + 1) % t.capacity_) →
    ∀ q, q < t.capacity_ → (q + 1) % t.capacity_ = index →
      t.busy q = true ∧ t.probeDist ((index + 1) % t.capacity_) ≤ t.probeDist q + 2

/-- The tables that the public interface can produce from the empty table with hash function
`hasher`: by `insert`, `erase`, `operator[]` and `clear`, each call having returned, and by
writes to the value of an occupied slot through a reference or iterator handed out. -/
inductive Reachable [DecidableEq K] [Inhabited K] [Inhabited V] (hasher : K → Nat) :
    HashMap K V → Prop where
  | construct : Reachable hasher (HashMap.construct hasher)
  | insert (fuel : Nat) (t t1 : HashMap K V) (element : K × V) :
      Reachable hasher t → HashMap.insert fuel t element = some t1 → Reachable hasher t1
  | erase (fuel : Nat) (t t1 : HashMap K V) (key : K) :
      Reachable hasher t → HashMap.erase fuel t key = some t1 → Reachable hasher t1
  | operator_index (fuel : Nat) (t t1 : HashMap K V) (key : K) (found : Nat) :
      Reachable hasher t → HashMap.operator_index fuel t key = some (t1, found) →
      Reachable hasher t1
  | clear (t : HashMap K V) : Reachable hasher t → Reachable hasher (HashMap.clear t)
  | assign (t : HashMap K V) (bucket_id : Nat) (value : V) :
      Reachable hasher t → bucket_id < t.capacity_ → t.busy bucket_id = true →
      Reachable hasher (HashMap.assign t bucket_id value)

/-- The full scan that `find` is compared with: the smallest index below `capacity_` whose slot is
occupied and holds `key`, and `capacity_` when there is none. -/
def scanFind [DecidableEq K] [Inhabited K] [Inhabited V] (t : HashMap K V) (key : K) : Nat :=
  ((List.range t.capacity_).find? (fun i => t.busy i && decide ((t.slot i).1 = key))).getD
    t.capacity_

/-- The bucket ids that a traversal visits: `begin()` and the results of the first `size() - 1`
applications of `operator++`. -/
def visited (t : HashMap K V) : List Nat :=
  (List.range t.size_).map (fun n => (t.next)^[n] t.begin)

/-- A hash function for the examples: every key has the ideal slot `0`. -/
def exampleHash : Nat → Nat := fun _ => 0

/-- The table after `insert({1, 10})` and `insert({2, 20})` into the empty table with
`exampleHash`; the second insertion has grown the table to capacity 8. -/
def exampleTable : HashMap Nat Nat :=
  { capacity_ := 8
    size_ := 2
    is_busy_ := [true, true, false, false, false, false, false, false]
    data_ := [(1, 10), (2, 20), (0, 0), (0, 0), (0, 0), (0, 0), (0, 0), (0, 0)]
    hasher_ := exampleHash }

/-- The table `exampleTable` after `insert({3, 30})`. -/
def exampleTable3 : HashMap Nat Nat :=
  { capacity_ := 8
    size_ := 3
    is_busy_ := [true, true, true, false, false, false, false, false]
    data_ := [(1, 10), (2, 20), (3, 30), (0, 0), (0, 0), (0, 0), (0, 0), (0, 0)]
    hasher_ := exampleHash }

/-- The probe distance as the claims write it: `(j - hash(K) mod capacity + capacity) mod
capacity` for the key `key` at index `j`, with the subtraction done after the addition. -/
def probeDistance (t : HashMap K V) (key : K) (j : Nat) : Nat :=
  (j + t.capacity_ - t.hasher_ key % t.capacity_) % t.capacity_

/-- The first pair of the list `l` whose key is `k`. -/
def firstWithKey [DecidableEq K] (l : List (K × V)) (k : K) : Option (K × V) :=
  l.find? (fun e => decide (e.1 = k))

/-- A hash function for the examples: the key itself. -/
def exampleIdHash : Nat → Nat := fun k => k

/-! ## Lists -/

theorem getD_set_eq {α : Type} (l : List α) (i j : Nat) (x d : α) :
    (l.set i x).getD j d = if j = i ∧ i < l.length then x else l.getD j d := by
  rw [List.getD_eq_getElem?_getD, List.getD_eq_getElem?_getD, List.getElem?_set]
  by_cases h : i = j
  · subst h
    by_cases h2 : i < l.length
    · simp [h2]
    · simp [h2, List.getElem?_eq_none (Nat.le_of_not_lt h2)]
  · have h3 : ¬ j = i := fun e => h e.symm
    simp [h, h3]

theorem count_set_true (l : List Bool) (i : Nat) (hi : i < l.length)
    (h : l.getD i false = false) : (l.set i true).count true = l.count true + 1 := by
  induction l generalizing i with
  | nil => simp at hi
  | cons a l ih =>
    cases i with
    | zero =>
      simp at h
      subst h
      simp
    | succ i =>
      simp at h hi
      have := ih i hi (by simpa using h)
      cases a <;> simp [List.count_cons, this]

theorem count_set_false (l : List Bool) (i : Nat) (hi : i < l.length)
    (h : l.getD i false = true) : (l.set i false).count true + 1 = l.count true := by
  induction l generalizing i with
  | nil => simp at hi
  | cons a l ih =>
    cases i with
    | zero =>
      simp at h
      subst h
      simp
    | succ i =>
      simp at h hi
      have := ih i hi (by simpa using h)
      cases a <;> simp [List.count_cons] <;> omega

theorem exists_free (l : List Bool) (h : l.count true < l.length) :
    ∃ i, i < l.length ∧ l.getD i false = false := by
  induction l with
  | nil => simp at h
  | cons a l ih =>
    cases a with
    | false => exact ⟨0, by simp, by simp⟩
    | true =>
      have h2 : l.count true < l.length := by simpa using h
      obtain ⟨i, hi, hf⟩ := ih h2
      exact ⟨i + 1, by simpa using hi, by simpa using hf⟩

theorem set_append_replicate {α : Type} (pre : List α) (n : Nat) (x d : α) :
    (pre ++ List.replicate (n + 1) d).set pre.length x = (pre ++ [x]) ++ List.replicate n d := by
  induction pre with
  | nil => simp [List.replicate_succ]
  | cons a pre ih => simpa using ih

/-- A loop that copies the marked entries to the front of a vector of default entries. -/
theorem elements_fold {α : Type} (busy : Nat → Bool) (slot : Nat → α) (d : α) :
    ∀ (is : List Nat) (pre : List α) (n : Nat), (is.filter busy).length ≤ n →
      is.foldl (fun (acc : List α × Nat) i =>
          if busy i then (acc.1.set acc.2 (slot i), acc.2 + 1) else acc)
        (pre ++ List.replicate n d, pre.length) =
      (pre ++ (is.filter busy).map slot ++ List.replicate (n - (is.filter busy).length) d,
        pre.length + (is.filter busy).length) := by
  intro is
  induction is with
  | nil => intro pre n _; simp
  | cons i is ih =>
    intro pre n hn
    rw [List.foldl_cons]
    by_cases hb : busy i = true
    · simp only [List.filter_cons, hb, if_true, List.length_cons] at hn ⊢
      obtain ⟨n1, rfl⟩ : ∃ n1, n = n1 + 1 := ⟨n - 1, by omega⟩
      rw [set_append_replicate]
      have := ih (pre ++ [slot i]) n1 (by omega)
      simp only [List.length_append, List.length_singleton] at this
      rw [this]
      simp
      omega
    · simp only [List.filter_cons, hb] at hn ⊢
      simpa using ih pre n hn

theorem filter_busy_length (l : List Bool) :
    ((List.range l.length).filter (fun i => l.getD i false)).length = l.count true := by
  induction l with
  | nil => simp
  | cons a l ih =>
    rw [List.length_cons, List.range_succ_eq_map, List.filter_cons, List.filter_map]
    have : ((fun i => (a :: l).getD i false) ∘ Nat.succ) = fun i => l.getD i false := by
      funext i
      simp
    rw [this]
    simp only [List.getD_eq_getElem?_getD] at ih
    cases a <;> simp [ih]

/-! ## Ring arithmetic -/

theorem succ_mod_eq {c j : Nat} (hj : j < c) :
    (j + 1) % c = if j + 1 = c then 0 else j + 1 := by
  split_ifs with h
  · rw [h, Nat.mod_self]
  · exact Nat.mod_eq_of_lt (by omega)

theorem succ_mod_lt {c j : Nat} (hj : j < c) : (j + 1) % c < c :=
  Nat.mod_lt _ (by omega)

theorem succ_mod_inj {c p q : Nat} (hp : p < c) (hq : q < c)
    (h : (p + 1) % c = (q + 1) % c) : p = q := by
  rw [succ_mod_eq hp, succ_mod_eq hq] at h
  split_ifs at h <;> omega

theorem succ_mod_ne {c j : Nat} (hc : 2 ≤ c) (hj : j < c) : (j + 1) % c ≠ j := by
  rw [succ_mod_eq hj]
  split_ifs <;> omega

theorem fwd_lt {c a b : Nat} (ha : a < c) (hb : b < c) : fwd c a b < c := by
  unfold fwd
  split_ifs <;> omega

theorem fwd_eq_zero {c a b : Nat} (ha : a < c) (_hb : b < c) : fwd c a b = 0 ↔ a = b := by
  unfold fwd
  split_ifs <;> omega

theorem fwd_succ_right {c a b : Nat} (ha : a < c) (hb : b < c) :
    fwd c a ((b + 1) % c) = if fwd c a b + 1 = c then 0 else fwd c a b + 1 := by
  rw [succ_mod_eq hb]
  unfold fwd
  split_ifs <;> omega

theorem fwd_succ_left {c a b : Nat} (ha : a < c) (hb : b < c) (hne : a ≠ b) :
    fwd c ((a + 1) % c) b + 1 = fwd c a b := by
  rw [succ_mod_eq ha]
  unfold fwd
  split_ifs <;> omega

theorem fwd_add {c a j p : Nat} (ha : a < c) (hj : j < c) (_hp : p < c)
    (h : fwd c j p ≤ fwd c a p) : fwd c a j + fwd c j p = fwd c a p := by
  unfold fwd at *
  split_ifs at * <;> omega

/-! ## Reading the table -/

theorem DistanceToHash_eq_fwd (t : HashMap K V) (k : K) (i : Nat) :
    t.DistanceToHash k i = fwd t.capacity_ (t.hasher_ k % t.capacity_) i := rfl

theorem hash_lt (t : HashMap K V) (hc : 4 ≤ t.capacity_) (k : K) :
    t.hasher_ k % t.capacity_ < t.capacity_ := Nat.mod_lt _ (by omega)

theorem DistanceToHash_lt (t : HashMap K V) (hc : 4 ≤ t.capacity_) (k : K) {i : Nat}
    (hi : i < t.capacity_) : t.DistanceToHash k i < t.capacity_ :=
  fwd_lt (hash_lt t hc k) hi

theorem DistanceToHash_succ (t : HashMap K V) (hc : 4 ≤ t.capacity_) (k : K) {i : Nat}
    (hi : i < t.capacity_) :
    t.DistanceToHash k ((i + 1) % t.capacity_) =
      if t.DistanceToHash k i + 1 = t.capacity_ then 0 else t.DistanceToHash k i + 1 :=
  fwd_succ_right (hash_lt t hc k) hi

theorem DistanceToHash_succ_le (t : HashMap K V) (hc : 4 ≤ t.capacity_) (k : K) {i : Nat}
    (hi : i < t.capacity_) :
    t.DistanceToHash k ((i + 1) % t.capacity_) ≤ t.DistanceToHash k i + 1 := by
  rw [DistanceToHash_succ t hc k hi]
  split_ifs <;> omega

theorem exists_free_slot (t : HashMap K V) (hw : t.WF) (hs : t.size_ = t.is_busy_.count true)
    (hlt : t.size_ < t.capacity_) : ∃ e, e < t.capacity_ ∧ t.busy e = false := by
  have h := exists_free t.is_busy_ (by rw [← hs, hw.busy_len]; exact hlt)
  rw [hw.busy_len] at h
  exact h

theorem size_lt_of_load (t : HashMap K V) (hc : 4 ≤ t.capacity_)
    (hl : 50 * t.size_ ≤ 21 * t.capacity_) : t.size_ + 1 < t.capacity_ := by omega

section Reading

variable [Inhabited K] [Inhabited V]

theorem Inv.has_free_slot {t : HashMap K V} (h : t.Inv) :
    ∃ e, e < t.capacity_ ∧ t.busy e = false :=
  HashMap.exists_free_slot t h.core.wf h.core.size_eq
    (by have := size_lt_of_load t h.core.cap_ge h.load; omega)

/-- Closed hashing with the Robin Hood bound: every slot on the way from the ideal slot of a
stored key to its slot is occupied, by a resident that is at least as far from home as the key
would be there. -/
theorem path_occupied (t : HashMap K V) (ho : t.Ordered) {p : Nat}
    (hp : p < t.capacity_) (hb : t.busy p = true) :
    ∀ m j, j < t.capacity_ → fwd t.capacity_ j p = m → m ≤ t.probeDist p →
      t.busy j = true ∧ t.probeDist p ≤ t.probeDist j + m := by
  intro m
  induction m with
  | zero =>
    intro j hj hm _
    have : j = p := (fwd_eq_zero hj hp).1 hm
    subst this
    exact ⟨hb, by omega⟩
  | succ m ih =>
    intro j hj hm hle
    have hne : j ≠ p := by
      intro e
      rw [(fwd_eq_zero hj hp).2 e] at hm
      omega
    have h1 := fwd_succ_left hj hp hne
    obtain ⟨hb1, hd1⟩ := ih ((j + 1) % t.capacity_) (succ_mod_lt hj) (by omega) (by omega)
    obtain ⟨hb2, hd2⟩ := ho j hj hb1 (by omega)
    exact ⟨hb2, by omega⟩

end Reading

/-! ## find -/

section Find

variable [DecidableEq K] [Inhabited K] [Inhabited V]

theorem findLoop_present (t : HashMap K V) (hu : t.Unique)
    (ho : t.Ordered) (k : K) {p : Nat} (hp : p < t.capacity_) (hb : t.busy p = true)
    (hk : (t.slot p).1 = k) :
    ∀ m j fuel, j < t.capacity_ → fwd t.capacity_ j p = m → m ≤ t.probeDist p → m < fuel →
      findLoop fuel t k j = some p := by
  intro m
  induction m with
  | zero =>
    intro j fuel hj hm _ hf
    have : j = p := (fwd_eq_zero hj hp).1 hm
    subst this
    obtain ⟨f, rfl⟩ : ∃ f, fuel = f + 1 := ⟨fuel - 1, by omega⟩
    simp [findLoop, hb, hk]
  | succ m ih =>
    intro j fuel hj hm hle hf
    obtain ⟨f, rfl⟩ : ∃ f, fuel = f + 1 := ⟨fuel - 1, by omega⟩
    have hne : j ≠ p := by
      intro e
      rw [(fwd_eq_zero hj hp).2 e] at hm
      omega
    have h1 := fwd_succ_left hj hp hne
    obtain ⟨hbj, _⟩ := path_occupied t ho hp hb (m + 1) j hj hm hle
    have hkj : ¬ k = (t.slot j).1 := by
      intro e
      exact hne (hu j p hj hp hbj hb (by rw [hk, ← e]))
    rw [findLoop]
    simp only [hbj, if_true, hkj, if_false]
    exact ih _ f (succ_mod_lt hj) (by omega) (by omega) (by omega)

theorem findLoop_absent (t : HashMap K V) (k : K)
    (ha : ∀ j, j < t.capacity_ → t.busy j = true → (t.slot j).1 ≠ k) {e : Nat}
    (he : e < t.capacity_) (hfree : t.busy e = false) :
    ∀ m j fuel, j < t.capacity_ → fwd t.capacity_ j e = m → m < fuel →
      findLoop fuel t k j = some t.capacity_ := by
  intro m
  induction m with
  | zero =>
    intro j fuel hj hm hf
    have : j = e := (fwd_eq_zero hj he).1 hm
    subst this
    obtain ⟨f, rfl⟩ : ∃ f, fuel = f + 1 := ⟨fuel - 1, by omega⟩
    simp [findLoop, hfree, end_]
  | succ m ih =>
    intro j fuel hj hm hf
    obtain ⟨f, rfl⟩ : ∃ f, fuel = f + 1 := ⟨fuel - 1, by omega⟩
    have hne : j ≠ e := by
      intro e1
      rw [(fwd_eq_zero hj he).2 e1] at hm
      omega
    have h1 := fwd_succ_left hj he hne
    rw [findLoop]
    by_cases hbj : t.busy j = true
    · have hkj : ¬ k = (t.slot j).1 := fun e1 => ha j hj hbj e1.symm
      simp only [hbj, if_true, hkj, if_false]
      exact ih _ f (succ_mod_lt hj) (by omega) (by omega)
    · simp [hbj, end_]

/-- With the invariant, `find` returns the slot of a stored key. -/
theorem find_present {t : HashMap K V} (h : t.Inv) {k : K} {p fuel : Nat} (hp : p < t.capacity_)
    (hb : t.busy p = true) (hk : (t.slot p).1 = k) (hf : t.capacity_ ≤ fuel) :
    find fuel t k = some p := by
  have hc := h.core.cap_ge
  have hh := hash_lt t hc k
  have hd : t.probeDist p = fwd t.capacity_ (t.hasher_ k % t.capacity_) p := by
    unfold probeDist
    rw [hk, DistanceToHash_eq_fwd]
  have hlt := fwd_lt hh hp
  exact findLoop_present t h.core.uniq h.core.ord k hp hb hk _ _ fuel hh rfl
    (by omega) (by omega)

/-- With the invariant, `find` returns `end()` for a key that no occupied slot holds. -/
theorem find_absent {t : HashMap K V} (h : t.Inv) {k : K} {fuel : Nat}
    (ha : ∀ j, j < t.capacity_ → t.busy j = true → (t.slot j).1 ≠ k) (hf : t.capacity_ ≤ fuel) :
    find fuel t k = some t.capacity_ := by
  obtain ⟨e, he, hfree⟩ := h.has_free_slot
  have hh := hash_lt t h.core.cap_ge k
  have hlt := fwd_lt hh he
  exact findLoop_absent t k ha he hfree _ _ fuel hh rfl (by omega)

theorem scanFind_present {t : HashMap K V} (hu : t.Unique) {k : K} {p : Nat}
    (hp : p < t.capacity_) (hb : t.busy p = true) (hk : (t.slot p).1 = k) :
    scanFind t k = p := by
  unfold scanFind
  cases hfind : (List.range t.capacity_).find?
      (fun i => t.busy i && decide ((t.slot i).1 = k)) with
  | none =>
    rw [List.find?_eq_none] at hfind
    have := hfind p (List.mem_range.2 hp)
    simp [hb, hk] at this
  | some a =>
    have h1 := List.find?_some hfind
    have h2 := List.mem_range.1 (List.mem_of_find?_eq_some hfind)
    simp only [Bool.and_eq_true, decide_eq_true_eq] at h1
    simp only [Option.getD_some]
    exact hu a p h2 hp h1.1 hb (by rw [h1.2, hk])

theorem scanFind_absent {t : HashMap K V} {k : K}
    (ha : ∀ j, j < t.capacity_ → t.busy j = true → (t.slot j).1 ≠ k) :
    scanFind t k = t.capacity_ := by
  unfold scanFind
  have : (List.range t.capacity_).find?
      (fun i => t.busy i && decide ((t.slot i).1 = k)) = none := by
    rw [List.find?_eq_none]
    intro x hx
    have hx1 := List.mem_range.1 hx
    by_cases hbx : t.busy x = true
    · simp [hbx, ha x hx1 hbx]
    · simp [hbx]
  rw [this]
  rfl

end Find

/-! ## The loop of insert -/

section InsertLoop

variable [Inhabited K] [Inhabited V]

theorem slot_set_data (t : HashMap K V) (hw : t.WF) {i : Nat} (hi : i < t.capacity_) (e : K × V)
    (j : Nat) :
    ({ t with data_ := t.data_.set i e } : HashMap K V).slot j = if j = i then e else t.slot j := by
  unfold slot
  simp only [getD_set_eq, hw.data_len, hi, and_true]

theorem probeDist_set_data (t : HashMap K V) (hw : t.WF) {i : Nat} (hi : i < t.capacity_)
    (e : K × V) (j : Nat) :
    ({ t with data_ := t.data_.set i e } : HashMap K V).probeDist j =
      if j = i then t.DistanceToHash e.1 i else t.probeDist j := by
  unfold probeDist
  rw [slot_set_data t hw hi]
  split_ifs with h
  · subst h; rfl
  · rfl

theorem InsInv.keep {t : HashMap K V} {e : K × V} {i : Nat} (h : t.InsInv e i)
    (hb : t.busy i = true) (hd : ¬ t.DistanceToHash e.1 i > t.probeDist i) :
    t.InsInv e ((i + 1) % t.capacity_) where
  wf := h.wf
  cap_ge := h.cap_ge
  idx := succ_mod_lt h.idx
  uniq := h.uniq
  fresh := h.fresh
  ord := h.ord
  carried := by
    right
    have := DistanceToHash_succ_le t h.cap_ge e.1 h.idx
    exact ⟨i, h.idx, rfl, hb, by omega⟩

theorem InsInv.swap {t : HashMap K V} {e : K × V} {i : Nat} (h : t.InsInv e i)
    (hb : t.busy i = true) (hd : t.DistanceToHash e.1 i > t.probeDist i) :
    ({ t with data_ := t.data_.set i e } : HashMap K V).InsInv (t.slot i)
      ((i + 1) % t.capacity_) where
  wf := ⟨h.wf.busy_len, by simp [h.wf.data_len]⟩
  cap_ge := h.cap_ge
  idx := succ_mod_lt h.idx
  uniq := by
    intro a b ha hb1 hba hbb hk
    rw [slot_set_data t h.wf h.idx, slot_set_data t h.wf h.idx] at hk
    by_cases h1 : a = i <;> by_cases h2 : b = i
    · rw [h1, h2]
    · simp only [h1, h2, if_true, if_false] at hk
      exact absurd hk.symm (h.fresh b hb1 hbb)
    · simp only [h1, h2, if_true, if_false] at hk
      exact absurd hk (h.fresh a ha hba)
    · simp only [h1, h2, if_false] at hk
      exact h.uniq a b ha hb1 hba hbb hk
  fresh := by
    intro j hj hbj
    rw [slot_set_data t h.wf h.idx]
    by_cases h1 : j = i
    · simp only [h1, if_true]
      exact fun e1 => h.fresh i h.idx hb e1.symm
    · simp only [h1, if_false]
      exact fun e1 => h1 (h.uniq j i hj h.idx hbj hb e1)
  ord := by
    intro j hj hbs hpos
    have hc := h.cap_ge
    have hsj : (j + 1) % t.capacity_ ≠ j := succ_mod_ne (by omega) hj
    change t.busy ((j + 1) % t.capacity_) = true at hbs
    change t.busy j = true ∧ _
    rw [probeDist_set_data t h.wf h.idx] at hpos ⊢
    rw [probeDist_set_data t h.wf h.idx]
    by_cases h1 : (j + 1) % t.capacity_ = i
    · have hji : j ≠ i := fun e1 => hsj (by rw [h1, e1])
      simp only [h1, if_true, hji, if_false] at hpos ⊢
      rcases h.carried with h0 | ⟨p, hp, hps, hbp, hle⟩
      · omega
      · have : p = j := succ_mod_inj hp hj (by rw [hps, h1])
        subst this
        exact ⟨hbp, hle⟩
    · simp only [h1, if_false] at hpos ⊢
      obtain ⟨h3, h4⟩ := h.ord j hj hbs hpos
      refine ⟨h3, ?_⟩
      split_ifs with h2
      · subst h2; omega
      · exact h4
  carried := by
    right
    refine ⟨i, h.idx, rfl, hb, ?_⟩
    rw [probeDist_set_data t h.wf h.idx]
    simp only [if_true]
    have := DistanceToHash_succ_le t h.cap_ge (t.slot i).1 h.idx
    change t.DistanceToHash (t.slot i).1 ((i + 1) % t.capacity_) ≤ _
    unfold probeDist at hd
    omega

theorem Holds_swap (t : HashMap K V) (hw : t.WF) {i : Nat} (hi : i < t.capacity_)
    (hb : t.busy i = true) (e kv : K × V) :
    (({ t with data_ := t.data_.set i e } : HashMap K V).Holds kv ∨ kv = t.slot i) ↔
      (t.Holds kv ∨ kv = e) := by
  constructor
  · rintro (⟨j, hj, hbj, hs⟩ | h1)
    · rw [slot_set_data t hw hi] at hs
      by_cases h2 : j = i
      · simp only [h2, if_true] at hs
        exact Or.inr hs.symm
      · simp only [h2, if_false] at hs
        exact Or.inl ⟨j, hj, hbj, hs⟩
    · exact Or.inl ⟨i, hi, hb, h1.symm⟩
  · rintro (⟨j, hj, hbj, hs⟩ | h1)
    · by_cases h2 : j = i
      · subst h2
        exact Or.inr hs.symm
      · refine Or.inl ⟨j, hj, hbj, ?_⟩
        rw [slot_set_data t hw hi]
        simp only [h2, if_false]
        exact hs
    · refine Or.inl ⟨i, hi, hb, ?_⟩
      rw [slot_set_data t hw hi]
      simp only [if_true]
      exact h1.symm

theorem InsInv.at_ideal {t : HashMap K V} (h : t.Inv) (e : K × V)
    (ha : ∀ j, j < t.capacity_ → t.busy j = true → (t.slot j).1 ≠ e.1) :
    t.InsInv e (t.hasher_ e.1 % t.capacity_) where
  wf := h.core.wf
  cap_ge := h.core.cap_ge
  idx := hash_lt t h.core.cap_ge e.1
  uniq := h.core.uniq
  fresh := ha
  ord := h.core.ord
  carried := by
    left
    rw [DistanceToHash_eq_fwd]
    exact (fwd_eq_zero (hash_lt t h.core.cap_ge e.1) (hash_lt t h.core.cap_ge e.1)).2 rfl

/-- The table after the two assignments and the increment that follow the loop of `insert`. -/
theorem InsInv.place {t : HashMap K V} {e : K × V} {i : Nat} (h : t.InsInv e i)
    (hb : t.busy i = false) (hs : t.size_ = t.is_busy_.count true) :
    ({ t with
        is_busy_ := t.is_busy_.set i true
        data_ := t.data_.set i e
        size_ := t.size_ + 1 } : HashMap K V).Core ∧
    ∀ kv, ({ t with
        is_busy_ := t.is_busy_.set i true
        data_ := t.data_.set i e
        size_ := t.size_ + 1 } : HashMap K V).Holds kv ↔ (t.Holds kv ∨ kv = e) := by
  have hi := h.idx
  have hc := h.cap_ge
  have hbusy : ∀ j, ({ t with
        is_busy_ := t.is_busy_.set i true
        data_ := t.data_.set i e
        size_ := t.size_ + 1 } : HashMap K V).busy j = if j = i then true else t.busy j := by
    intro j
    unfold busy
    simp only [getD_set_eq, h.wf.busy_len, hi, and_true]
  have hslot : ∀ j, ({ t with
        is_busy_ := t.is_busy_.set i true
        data_ := t.data_.set i e
        size_ := t.size_ + 1 } : HashMap K V).slot j = if j = i then e else t.slot j := by
    intro j
    unfold slot
    simp only [getD_set_eq, h.wf.data_len, hi, and_true]
  have hpd : ∀ j, ({ t with
        is_busy_ := t.is_busy_.set i true
        data_ := t.data_.set i e
        size_ := t.size_ + 1 } : HashMap K V).probeDist j =
          if j = i then t.DistanceToHash e.1 i else t.probeDist j := by
    intro j
    unfold probeDist
    rw [hslot]
    split_ifs with h1
    · subst h1; rfl
    · rfl
  refine ⟨⟨⟨by simp [h.wf.busy_len], by simp [h.wf.data_len]⟩, hc, ?_, ?_, ?_⟩, ?_⟩
  · change t.size_ + 1 = (t.is_busy_.set i true).count true
    rw [count_set_true _ _ (by rw [h.wf.busy_len]; exact hi) hb, hs]
  · intro a b ha hb1 hba hbb hk
    rw [hbusy] at hba hbb
    rw [hslot, hslot] at hk
    by_cases h1 : a = i <;> by_cases h2 : b = i
    · rw [h1, h2]
    · simp only [h1, h2, if_true, if_false] at hk hbb
      exact absurd hk.symm (h.fresh b hb1 hbb)
    · simp only [h1, h2, if_true, if_false] at hk hba
      exact absurd hk (h.fresh a ha hba)
    · simp only [h1, h2, if_false] at hk hba hbb
      exact h.uniq a b ha hb1 hba hbb hk
  · intro j hj hbs hpos
    have hsj : (j + 1) % t.capacity_ ≠ j := succ_mod_ne (by omega) hj
    change ({ t with
        is_busy_ := t.is_busy_.set i true
        data_ := t.data_.set i e
        size_ := t.size_ + 1 } : HashMap K V).busy ((j + 1) % t.capacity_) = true at hbs
    change 0 < ({ t with
        is_busy_ := t.is_busy_.set i true
        data_ := t.data_.set i e
        size_ := t.size_ + 1 } : HashMap K V).probeDist ((j + 1) % t.capacity_) at hpos
    change _ ∧ ({ t with
        is_busy_ := t.is_busy_.set i true
        data_ := t.data_.set i e
        size_ := t.size_ + 1 } : HashMap K V).probeDist ((j + 1) % t.capacity_) ≤ _
    rw [hbusy] at hbs ⊢
    rw [hpd] at hpos ⊢
    rw [hpd]
    by_cases h1 : (j + 1) % t.capacity_ = i
    · have hji : j ≠ i := fun e1 => hsj (by rw [h1, e1])
      simp only [h1, if_true, hji, if_false] at hpos ⊢
      rcases h.carried with h0 | ⟨p, hp, hps, hbp, hle⟩
      · omega
      · have : p = j := succ_mod_inj hp hj (by rw [hps, h1])
        subst this
        exact ⟨hbp, hle⟩
    · simp only [h1, if_false] at hpos hbs ⊢
      obtain ⟨h3, h4⟩ := h.ord j hj hbs hpos
      have hji : j ≠ i := by
        intro e1
        rw [e1, hb] at h3
        exact Bool.noConfusion h3
      simp only [hji, if_false]
      exact ⟨h3, h4⟩
  · intro kv
    constructor
    · rintro ⟨j, hj, hbj, hsl⟩
      rw [hslot] at hsl
      rw [hbusy] at hbj
      by_cases h2 : j = i
      · simp only [h2, if_true] at hsl
        exact Or.inr hsl.symm
      · simp only [h2, if_false] at hsl hbj
        exact Or.inl ⟨j, hj, hbj, hsl⟩
    · rintro (⟨j, hj, hbj, hsl⟩ | h1)
      · have h2 : j ≠ i := by
          intro e1
          rw [e1, hb] at hbj
          exact Bool.noConfusion hbj
        refine ⟨j, hj, ?_, ?_⟩
        · rw [hbusy]; simp only [h2, if_false]; exact hbj
        · rw [hslot]; simp only [h2, if_false]; exact hsl
      · refine ⟨i, hi, ?_, ?_⟩
        · rw [hbusy]; simp
        · rw [hslot]; simp [h1]

end InsertLoop

section InsertLoopRun

variable [DecidableEq K] [Inhabited K] [Inhabited V]

/-- The loop of `insert` for a key that the table does not hold: it is left at a free slot, it
changed no occupancy marker, and the pairs of the table together with the pair in hand are the
pairs of the table at the start together with the pair to insert. -/
theorem insertLoop_absent {e0 : Nat} :
    ∀ m (t : HashMap K V) (e : K × V) (i : Nat), t.InsInv e i → e0 < t.capacity_ →
      t.busy e0 = false → fwd t.capacity_ i e0 = m →
      ∃ t1 j e1, (∀ fuel, m < fuel → insertLoop fuel t e i = some (ProbeExit.vacant t1 j e1)) ∧
        t1.InsInv e1 j ∧
        t1.busy j = false ∧ t1.is_busy_ = t.is_busy_ ∧ t1.capacity_ = t.capacity_ ∧
        t1.size_ = t.size_ ∧ t1.hasher_ = t.hasher_ ∧
        ∀ kv, (t1.Holds kv ∨ kv = e1) ↔ (t.Holds kv ∨ kv = e) := by
  intro m
  induction m with
  | zero =>
    intro t e i h he0 hfree hm
    have : i = e0 := (fwd_eq_zero h.idx he0).1 hm
    subst this
    refine ⟨t, i, e, ?_, h, hfree, rfl, rfl, rfl, rfl, fun _ => Iff.rfl⟩
    intro fuel hf
    obtain ⟨f, rfl⟩ : ∃ f, fuel = f + 1 := ⟨fuel - 1, by omega⟩
    simp [insertLoop, hfree]
  | succ m ih =>
    intro t e i h he0 hfree hm
    have hne : i ≠ e0 := by
      intro e1
      rw [(fwd_eq_zero h.idx he0).2 e1] at hm
      omega
    have h1 := fwd_succ_left h.idx he0 hne
    by_cases hb : t.busy i = true
    · have hk : ¬ e.1 = (t.slot i).1 := fun e1 => h.fresh i h.idx hb e1.symm
      by_cases hd : t.DistanceToHash e.1 i > t.DistanceToHash (t.slot i).1 i
      · obtain ⟨t1, j, e1, hr, hinv, hbj, hbusy, hcap, hsize, hhash, hholds⟩ :=
          ih _ _ _ (h.swap hb hd) he0 hfree (by change fwd t.capacity_ _ e0 = m; omega)
        refine ⟨t1, j, e1, ?_, hinv, hbj, hbusy, hcap, hsize, hhash, ?_⟩
        · intro fuel hf
          obtain ⟨f, rfl⟩ : ∃ f, fuel = f + 1 := ⟨fuel - 1, by omega⟩
          rw [insertLoop]
          simp only [hb, if_true, hk, if_false, hd]
          exact hr f (by omega)
        · intro kv
          rw [hholds kv]
          exact Holds_swap t h.wf h.idx hb e kv
      · obtain ⟨t1, j, e1, hr, hinv, hbj, hbusy, hcap, hsize, hhash, hholds⟩ :=
          ih _ _ _ (h.keep hb hd) he0 hfree (by omega)
        refine ⟨t1, j, e1, ?_, hinv, hbj, hbusy, hcap, hsize, hhash, hholds⟩
        intro fuel hf
        obtain ⟨f, rfl⟩ : ∃ f, fuel = f + 1 := ⟨fuel - 1, by omega⟩
        rw [insertLoop]
        simp only [hb, if_true, hk, if_false, hd]
        exact hr f (by omega)
    · refine ⟨t, i, e, ?_, h, by simpa using hb, rfl, rfl, rfl, rfl, fun _ => Iff.rfl⟩
      intro fuel hf
      obtain ⟨f, rfl⟩ : ∃ f, fuel = f + 1 := ⟨fuel - 1, by omega⟩
      rw [insertLoop]
      simp [hb]

/-- The loop of `insert` for a key that the table holds: it returns at the slot of the key
without having swapped. -/
theorem insertLoop_present (t : HashMap K V) (hu : t.Unique) (ho : t.Ordered) (e : K × V)
    {p : Nat} (hp : p < t.capacity_) (hb : t.busy p = true) (hk : (t.slot p).1 = e.1)
    (hc : 4 ≤ t.capacity_) :
    ∀ m j fuel, j < t.capacity_ → fwd t.capacity_ j p = m → m ≤ t.probeDist p → m < fuel →
      insertLoop fuel t e j = some (ProbeExit.returned t) := by
  intro m
  induction m with
  | zero =>
    intro j fuel hj hm _ hf
    have : j = p := (fwd_eq_zero hj hp).1 hm
    subst this
    obtain ⟨f, rfl⟩ : ∃ f, fuel = f + 1 := ⟨fuel - 1, by omega⟩
    simp [insertLoop, hb, hk]
  | succ m ih =>
    intro j fuel hj hm hle hf
    obtain ⟨f, rfl⟩ : ∃ f, fuel = f + 1 := ⟨fuel - 1, by omega⟩
    have hne : j ≠ p := by
      intro e1
      rw [(fwd_eq_zero hj hp).2 e1] at hm
      omega
    have h1 := fwd_succ_left hj hp hne
    obtain ⟨hbj, hdj⟩ := path_occupied t ho hp hb (m + 1) j hj hm hle
    have hkj : ¬ e.1 = (t.slot j).1 := by
      intro e1
      exact hne (hu j p hj hp hbj hb (by rw [hk, ← e1]))
    have hpath : t.DistanceToHash e.1 j + fwd t.capacity_ j p = t.DistanceToHash e.1 p :=
      fwd_add (hash_lt t hc e.1) hj hp (by
        have : t.probeDist p = t.DistanceToHash e.1 p := by unfold probeDist; rw [hk]
        rw [DistanceToHash_eq_fwd] at this
        omega)
    have hd : ¬ t.DistanceToHash e.1 j > t.DistanceToHash (t.slot j).1 j := by
      have : t.probeDist p = t.DistanceToHash e.1 p := by unfold probeDist; rw [hk]
      unfold probeDist at hdj this
      omega
    rw [insertLoop]
    simp only [hbj, if_true, hkj, if_false, hd]
    exact ih _ f (succ_mod_lt hj) (by omega) (by omega) (by omega)

end InsertLoopRun

/-! ## insert -/

theorem getD_replicate_false (c j : Nat) : (List.replicate c false).getD j false = false := by
  rw [List.getD_eq_getElem?_getD, List.getElem?_replicate]
  split_ifs <;> rfl

theorem foldlM_mono (ins ins1 : HashMap K V → K × V → Option (HashMap K V))
    (hm : ∀ m x r, ins m x = some r → ins1 m x = some r) :
    ∀ (els : List (K × V)) (acc r : HashMap K V),
      els.foldlM ins acc = some r → els.foldlM ins1 acc = some r := by
  intro els
  induction els with
  | nil => intro acc r h; exact h
  | cons x rest ih =>
    intro acc r h
    rw [List.foldlM_cons] at h ⊢
    cases hx : ins acc x with
    | none => rw [hx] at h; simp at h
    | some a =>
      rw [hx] at h
      rw [hm acc x a hx]
      exact ih a r h

section Fresh

variable [Inhabited K] [Inhabited V]

/-- A newly allocated table of capacity `c` satisfies the invariant and has no occupied slot. -/
theorem fresh_inv (c : Nat) (hc : 4 ≤ c) (hasher : K → Nat) :
    ({ capacity_ := c
       size_ := 0
       is_busy_ := List.replicate c false
       data_ := List.replicate c default
       hasher_ := hasher } : HashMap K V).Inv := by
  have hb : ∀ j, (HashMap.mk c 0 (List.replicate c false) (List.replicate c (default : K × V))
      hasher).busy j = false := fun j => getD_replicate_false c j
  refine ⟨⟨⟨by simp, by simp⟩, hc, ?_, ?_, ?_⟩, by simp⟩
  · simp [List.count_replicate]
  · intro a b _ _ hba
    rw [hb] at hba
    exact Bool.noConfusion hba
  · intro j _ hbs
    rw [hb] at hbs
    exact Bool.noConfusion hbs

theorem fresh_not_Holds (c : Nat) (hasher : K → Nat) (kv : K × V) :
    ¬ ({ capacity_ := c
         size_ := 0
         is_busy_ := List.replicate c false
         data_ := List.replicate c default
         hasher_ := hasher } : HashMap K V).Holds kv := by
  rintro ⟨j, _, hbj, _⟩
  have : (List.replicate c false).getD j false = true := hbj
  rw [getD_replicate_false] at this
  exact Bool.noConfusion this

theorem Reallocation_elements_eq (t : HashMap K V) (hw : t.WF)
    (hs : t.size_ = t.is_busy_.count true) :
    t.Reallocation_elements =
      ((List.range t.capacity_).filter (fun i => t.busy i)).map (fun i => t.slot i) := by
  have hlen : ((List.range t.capacity_).filter (fun i => t.busy i)).length = t.size_ := by
    rw [hs, ← hw.busy_len]
    exact filter_busy_length t.is_busy_
  have h := elements_fold (fun i => t.busy i) (fun i => t.slot i) (default : K × V)
    (List.range t.capacity_) [] t.size_ (by rw [hlen])
  unfold Reallocation_elements
  simp only [List.nil_append, List.length_nil] at h
  rw [h, hlen]
  simp

theorem Inv.construct (hasher : K → Nat) : (HashMap.construct hasher : HashMap K V).Inv :=
  fresh_inv 4 (le_refl 4) hasher

theorem Inv.clear (t : HashMap K V) : (HashMap.clear t).Inv :=
  fresh_inv 4 (le_refl 4) t.hasher_

/-- A write to the value of a slot keeps the invariant: it changes no key. -/
theorem Inv.assign {t : HashMap K V} (h : t.Inv) {b : Nat} (hb : b < t.capacity_) (v : V) :
    (HashMap.assign t b v).Inv := by
  have hkey : ∀ j, ((HashMap.assign t b v).slot j).1 = (t.slot j).1 := by
    intro j
    unfold HashMap.assign
    rw [slot_set_data t h.core.wf hb]
    split_ifs with h1
    · rw [h1]
    · rfl
  have hpd : ∀ j, (HashMap.assign t b v).probeDist j = t.probeDist j := by
    intro j
    unfold probeDist
    rw [hkey]
    rfl
  refine ⟨⟨⟨h.core.wf.busy_len, ?_⟩, h.core.cap_ge, h.core.size_eq, ?_, ?_⟩, h.load⟩
  · unfold HashMap.assign
    simp [h.core.wf.data_len]
  · intro i j hi hj hbi hbj hk
    rw [hkey, hkey] at hk
    exact h.core.uniq i j hi hj hbi hbj hk
  · intro j hj hbs hpos
    change 0 < (HashMap.assign t b v).probeDist ((j + 1) % t.capacity_) at hpos
    change t.busy j = true ∧ (HashMap.assign t b v).probeDist ((j + 1) % t.capacity_) ≤
      (HashMap.assign t b v).probeDist j + 1
    rw [hpd] at hpos ⊢
    rw [hpd]
    exact h.core.ord j hj hbs hpos

end Fresh

section Insert

variable [DecidableEq K] [Inhabited K] [Inhabited V]

/-- For a key that the table does not hold, `insert` is `CheckMemoryLimit` applied to the table
with the new pair placed. -/
theorem insert_eq_check {t : HashMap K V} (h : t.Inv) (e : K × V)
    (ha : ∀ j, j < t.capacity_ → t.busy j = true → (t.slot j).1 ≠ e.1) :
    ∃ t2 : HashMap K V, t2.Core ∧ t2.capacity_ = t.capacity_ ∧ t2.size_ = t.size_ + 1 ∧
      t2.hasher_ = t.hasher_ ∧ (∀ kv, t2.Holds kv ↔ (t.Holds kv ∨ kv = e)) ∧
      ∀ f, t.capacity_ ≤ f + 1 →
        insert (f + 1) t e = CheckMemoryLimit (fun m x => insert f m x) t2 := by
  obtain ⟨e0, he0, hfree⟩ := h.has_free_slot
  have hstart := InsInv.at_ideal h e ha
  have hm := fwd_lt hstart.idx he0
  obtain ⟨t1, j, e1, hr, hinv, hbj, hbusy, hcap, hsize, hhash, hholds⟩ :=
    insertLoop_absent _ t e _ hstart he0 hfree rfl
  have hs1 : t1.size_ = t1.is_busy_.count true := by
    rw [hsize, hbusy]
    exact h.core.size_eq
  obtain ⟨hcore, hh2⟩ := hinv.place hbj hs1
  refine ⟨_, hcore, hcap, by change t1.size_ + 1 = _; rw [hsize], hhash, ?_, ?_⟩
  · intro kv
    rw [hh2 kv, hholds kv]
  · intro f hf
    rw [insert]
    simp only [hr (f + 1) (by omega)]

theorem exceedsLoad_eq_false {s c : Nat} (h : 50 * s ≤ 21 * c) : exceedsLoad s c = false := by
  unfold exceedsLoad
  simp only [decide_eq_false_iff_not]
  omega

theorem exceedsLoad_eq_true {s c : Nat} (h : 21 * c < 50 * s) : exceedsLoad s c = true := by
  unfold exceedsLoad
  simp only [decide_eq_true_eq]
  exact h

/-- Insertion of a new key that does not exceed the load factor. -/
theorem insert_absent_small {t : HashMap K V} (h : t.Inv) (e : K × V)
    (ha : ∀ j, j < t.capacity_ → t.busy j = true → (t.slot j).1 ≠ e.1)
    (hl : 50 * (t.size_ + 1) ≤ 21 * t.capacity_) :
    ∃ t2 : HashMap K V, t2.Inv ∧ t2.capacity_ = t.capacity_ ∧ t2.size_ = t.size_ + 1 ∧
      t2.hasher_ = t.hasher_ ∧ (∀ kv, t2.Holds kv ↔ (t.Holds kv ∨ kv = e)) ∧
      ∀ fuel, t.capacity_ ≤ fuel → insert fuel t e = some t2 := by
  obtain ⟨t2, hcore, hcap, hsize, hhash, hholds, hins⟩ := insert_eq_check h e ha
  refine ⟨t2, ⟨hcore, by rw [hcap, hsize]; exact hl⟩, hcap, hsize, hhash, hholds, ?_⟩
  intro fuel hf
  have hc := h.core.cap_ge
  obtain ⟨f, rfl⟩ : ∃ f, fuel = f + 1 := ⟨fuel - 1, by omega⟩
  rw [hins f hf]
  unfold CheckMemoryLimit
  rw [exceedsLoad_eq_false (by rw [hcap, hsize]; exact hl)]
  rfl

/-- The loop of `Reallocation` over `elements`, when no insertion exceeds the load factor. -/
theorem foldlM_insert :
    ∀ (els : List (K × V)) (acc : HashMap K V), acc.Inv →
      els.Pairwise (fun a b => a.1 ≠ b.1) →
      (∀ x, x ∈ els → ∀ j, j < acc.capacity_ → acc.busy j = true → (acc.slot j).1 ≠ x.1) →
      50 * (acc.size_ + els.length) ≤ 21 * acc.capacity_ →
      ∃ t1 : HashMap K V, t1.Inv ∧
        t1.capacity_ = acc.capacity_ ∧ t1.size_ = acc.size_ + els.length ∧
        t1.hasher_ = acc.hasher_ ∧ (∀ kv, t1.Holds kv ↔ (acc.Holds kv ∨ kv ∈ els)) ∧
        ∀ f, acc.capacity_ ≤ f → els.foldlM (fun m x => insert f m x) acc = some t1 := by
  intro els
  induction els with
  | nil =>
    intro acc h _ _ _
    exact ⟨acc, h, rfl, rfl, rfl, by simp, fun _ _ => rfl⟩
  | cons x rest ih =>
    intro acc h hpw habs hl
    rw [List.pairwise_cons] at hpw
    simp only [List.length_cons] at hl
    obtain ⟨t2, hinv, hcap, hsize, hhash, hholds, hins⟩ :=
      insert_absent_small h x (habs x (List.mem_cons_self _ _)) (by omega)
    have habs2 : ∀ y, y ∈ rest → ∀ j, j < t2.capacity_ → t2.busy j = true →
        (t2.slot j).1 ≠ y.1 := by
      intro y hy j hj hbj hk
      rcases (hholds (t2.slot j)).1 ⟨j, hj, hbj, rfl⟩ with ⟨i, hi, hbi, hsi⟩ | h1
      · exact habs y (List.mem_cons_of_mem _ hy) i hi hbi (by rw [hsi, hk])
      · exact hpw.1 y hy (by rw [← h1, hk])
    obtain ⟨t1, hinv1, hcap1, hsize1, hhash1, hholds1, hfold⟩ :=
      ih t2 hinv hpw.2 habs2 (by rw [hcap, hsize]; omega)
    refine ⟨t1, hinv1, by rw [hcap1, hcap], by rw [hsize1, hsize]; simp; omega,
      by rw [hhash1, hhash], ?_, ?_⟩
    · intro kv
      rw [hholds1 kv, hholds kv, List.mem_cons]
      tauto
    · intro f hf
      rw [List.foldlM_cons, hins f hf]
      exact hfold f (by rw [hcap]; exact hf)

/-- Growth: `Reallocation` returns a table of twice the capacity that holds the same pairs. -/
theorem Reallocation_spec {t : HashMap K V} (h : t.Core)
    (hl : 50 * t.size_ ≤ 21 * (t.capacity_ * 2)) :
    ∃ t1 : HashMap K V, t1.Inv ∧ t1.capacity_ = t.capacity_ * 2 ∧ t1.size_ = t.size_ ∧
      t1.hasher_ = t.hasher_ ∧ (∀ kv, t1.Holds kv ↔ t.Holds kv) ∧
      ∀ f, t.capacity_ * 2 ≤ f → Reallocation (fun m x => insert f m x) t = some t1 := by
  have hel := Reallocation_elements_eq t h.wf h.size_eq
  have hlen : t.Reallocation_elements.length = t.size_ := by
    rw [hel, List.length_map, h.size_eq, ← h.wf.busy_len]
    exact filter_busy_length t.is_busy_
  have hmem : ∀ kv, kv ∈ t.Reallocation_elements ↔ t.Holds kv := by
    intro kv
    rw [hel, List.mem_map]
    constructor
    · rintro ⟨i, hi, rfl⟩
      rw [List.mem_filter, List.mem_range] at hi
      exact ⟨i, hi.1, hi.2, rfl⟩
    · rintro ⟨i, hi, hb, hs⟩
      exact ⟨i, by rw [List.mem_filter, List.mem_range]; exact ⟨hi, hb⟩, hs⟩
  have hpw : t.Reallocation_elements.Pairwise (fun a b => a.1 ≠ b.1) := by
    rw [hel, List.pairwise_map]
    have hnd : ((List.range t.capacity_).filter (fun i => t.busy i)).Nodup :=
      (List.nodup_range _).filter _
    refine List.Pairwise.imp_of_mem ?_ hnd
    intro a b ha hb hne hk
    rw [List.mem_filter, List.mem_range] at ha hb
    exact hne (h.uniq a b ha.1 hb.1 ha.2 hb.2 hk)
  obtain ⟨t1, hinv, hcap, hsize, hhash, hholds, hfold⟩ :=
    foldlM_insert t.Reallocation_elements _
      (fresh_inv (t.capacity_ * 2) (by have := h.cap_ge; omega) t.hasher_) hpw
      (by
        intro x _ j _ hbj
        have : (List.replicate (t.capacity_ * 2) false).getD j false = true := hbj
        rw [getD_replicate_false] at this
        exact Bool.noConfusion this)
      (by rw [hlen]; simpa using hl)
  refine ⟨t1, hinv, hcap, by rw [hsize, hlen]; simp, hhash, ?_, ?_⟩
  · intro kv
    rw [hholds kv, hmem kv]
    constructor
    · rintro (h1 | h1)
      · exact absurd h1 (fresh_not_Holds _ _ kv)
      · exact h1
    · exact Or.inr
  · intro f hf
    exact hfold f hf

/-- Insertion of a key that the table does not hold. -/
theorem insert_absent {t : HashMap K V} (h : t.Inv) (e : K × V)
    (ha : ∀ j, j < t.capacity_ → t.busy j = true → (t.slot j).1 ≠ e.1) :
    ∃ t2 : HashMap K V, t2.Inv ∧
      t2.capacity_ = (if exceedsLoad (t.size_ + 1) t.capacity_ then t.capacity_ * 2
        else t.capacity_) ∧
      t2.size_ = t.size_ + 1 ∧ t2.hasher_ = t.hasher_ ∧
      (∀ kv, t2.Holds kv ↔ (t.Holds kv ∨ kv = e)) ∧
      ∀ fuel, t.capacity_ * 2 < fuel → insert fuel t e = some t2 := by
  by_cases hl : 50 * (t.size_ + 1) ≤ 21 * t.capacity_
  · obtain ⟨t2, hinv, hcap, hsize, hhash, hholds, hins⟩ := insert_absent_small h e ha hl
    refine ⟨t2, hinv, ?_, hsize, hhash, hholds, fun fuel hf => hins fuel (by omega)⟩
    rw [exceedsLoad_eq_false hl]
    exact hcap
  · obtain ⟨t2, hcore, hcap, hsize, hhash, hholds, hins⟩ := insert_eq_check h e ha
    have hc := h.core.cap_ge
    have hload := h.load
    obtain ⟨t3, hinv3, hcap3, hsize3, hhash3, hholds3, hre⟩ :=
      Reallocation_spec hcore (by rw [hcap, hsize]; omega)
    refine ⟨t3, hinv3, ?_, by rw [hsize3, hsize], by rw [hhash3, hhash], ?_, ?_⟩
    · rw [exceedsLoad_eq_true (by omega), hcap3, hcap]
      rfl
    · intro kv
      rw [hholds3 kv, hholds kv]
    · intro fuel hf
      obtain ⟨f, rfl⟩ : ∃ f, fuel = f + 1 := ⟨fuel - 1, by omega⟩
      rw [hins f (by omega)]
      unfold CheckMemoryLimit
      rw [hcap, hsize, exceedsLoad_eq_true (by omega)]
      simp only [if_true]
      exact hre f (by rw [hcap]; omega)

/-- Insertion of a key that the table holds: the call returns the table as it was. -/
theorem insert_present {t : HashMap K V} (h : t.Inv) (e : K × V) {p : Nat}
    (hp : p < t.capacity_) (hb : t.busy p = true) (hk : (t.slot p).1 = e.1) :
    ∀ fuel, t.capacity_ ≤ fuel → insert fuel t e = some t := by
  intro fuel hf
  have hc := h.core.cap_ge
  obtain ⟨f, rfl⟩ : ∃ f, fuel = f + 1 := ⟨fuel - 1, by omega⟩
  have hh := hash_lt t hc e.1
  have hd : t.probeDist p = fwd t.capacity_ (t.hasher_ e.1 % t.capacity_) p := by
    unfold probeDist
    rw [hk, DistanceToHash_eq_fwd]
  have hlt := fwd_lt hh hp
  have hr := insertLoop_present t h.core.uniq h.core.ord e hp hb hk hc _ _ (f + 1) hh rfl
    (by omega) (by omega)
  rw [insert]
  simp only [hr]

theorem insertLoop_mono :
    ∀ (fuel : Nat) (t : HashMap K V) (e : K × V) (i : Nat) (r : ProbeExit K V),
      insertLoop fuel t e i = some r → ∀ fuel1, fuel ≤ fuel1 → insertLoop fuel1 t e i = some r := by
  intro fuel
  induction fuel with
  | zero =>
    intro t e i r h
    simp [insertLoop] at h
  | succ f ih =>
    intro t e i r h fuel1 hle
    obtain ⟨f1, rfl⟩ : ∃ f1, fuel1 = f1 + 1 := ⟨fuel1 - 1, by omega⟩
    rw [insertLoop] at h ⊢
    split_ifs at h ⊢
    · exact h
    · exact ih _ _ _ _ h f1 (by omega)
    · exact ih _ _ _ _ h f1 (by omega)
    · exact h

/-- More fuel does not change what `insert` returns. -/
theorem insert_mono :
    ∀ (fuel : Nat) (t : HashMap K V) (e : K × V) (r : HashMap K V),
      insert fuel t e = some r → ∀ fuel1, fuel ≤ fuel1 → insert fuel1 t e = some r := by
  intro fuel
  induction fuel with
  | zero =>
    intro t e r h
    simp [insert] at h
  | succ f ih =>
    intro t e r h fuel1 hle
    obtain ⟨f1, rfl⟩ : ∃ f1, fuel1 = f1 + 1 := ⟨fuel1 - 1, by omega⟩
    rw [insert] at h ⊢
    cases hloop : insertLoop (f + 1) t e (t.hasher_ e.1 % t.capacity_) with
    | none => rw [hloop] at h; simp at h
    | some x =>
      rw [hloop] at h
      rw [insertLoop_mono _ _ _ _ _ hloop (f1 + 1) (by omega)]
      cases x with
      | returned t1 => exact h
      | vacant t1 j e1 =>
        simp only at h ⊢
        unfold CheckMemoryLimit at h ⊢
        split_ifs at h ⊢
        · unfold Reallocation at h ⊢
          exact foldlM_mono _ _ (fun m x r hr => ih m x r hr f1 (by omega)) _ _ _ h
        · exact h

end Insert

/-! ## erase -/

section EraseLoop

variable [Inhabited K] [Inhabited V]

theorem busy_shift (t : HashMap K V) (hw : t.WF) {i n : Nat} (hi : i < t.capacity_)
    (hn : n < t.capacity_) (j : Nat) :
    ({ t with
        data_ := t.data_.set i (t.slot n)
        is_busy_ := (t.is_busy_.set i true).set n false } : HashMap K V).busy j =
      if j = n then false else if j = i then true else t.busy j := by
  unfold busy
  simp only [getD_set_eq, List.length_set, hw.busy_len, hi, hn, and_true]

theorem slot_shift (t : HashMap K V) (hw : t.WF) {i n : Nat} (hi : i < t.capacity_) (j : Nat) :
    ({ t with
        data_ := t.data_.set i (t.slot n)
        is_busy_ := (t.is_busy_.set i true).set n false } : HashMap K V).slot j =
      if j = i then t.slot n else t.slot j := by
  unfold slot
  simp only [getD_set_eq, hw.data_len, hi, and_true]

theorem probeDist_shift (t : HashMap K V) (hw : t.WF) {i n : Nat} (hi : i < t.capacity_)
    (j : Nat) :
    ({ t with
        data_ := t.data_.set i (t.slot n)
        is_busy_ := (t.is_busy_.set i true).set n false } : HashMap K V).probeDist j =
      if j = i then t.DistanceToHash (t.slot n).1 i else t.probeDist j := by
  unfold probeDist
  rw [slot_shift t hw hi]
  split_ifs with h1
  · subst h1; rfl
  · rfl

/-- One iteration of the backward shift keeps the invariant of the loop. -/
theorem ShiftInv.step {t : HashMap K V} {i : Nat} (h : t.ShiftInv i)
    (hb : t.busy ((i + 1) % t.capacity_) = true)
    (hd : 0 < t.probeDist ((i + 1) % t.capacity_)) :
    ({ t with
        data_ := t.data_.set i (t.slot ((i + 1) % t.capacity_))
        is_busy_ := (t.is_busy_.set i true).set ((i + 1) % t.capacity_) false } :
      HashMap K V).ShiftInv ((i + 1) % t.capacity_) := by
  have hc := h.cap_ge
  have hi := h.idx
  have hn : (i + 1) % t.capacity_ < t.capacity_ := succ_mod_lt hi
  have hni : (i + 1) % t.capacity_ ≠ i := succ_mod_ne (by omega) hi
  have hnn : ((i + 1) % t.capacity_ + 1) % t.capacity_ ≠ (i + 1) % t.capacity_ :=
    succ_mod_ne (by omega) hn
  have hnni : ((i + 1) % t.capacity_ + 1) % t.capacity_ ≠ i := by
    rw [succ_mod_eq hn, succ_mod_eq hi]
    split_ifs <;> omega
  have hmove : t.DistanceToHash (t.slot ((i + 1) % t.capacity_)).1 i + 1 =
      t.probeDist ((i + 1) % t.capacity_) := by
    have := DistanceToHash_succ t hc (t.slot ((i + 1) % t.capacity_)).1 hi
    unfold probeDist at hd ⊢
    rw [this] at hd ⊢
    split_ifs at hd ⊢ <;> omega
  refine ⟨⟨by simp [h.wf.busy_len], by simp [h.wf.data_len]⟩, hc, hn, ?_, ?_, ?_, ?_⟩
  · rw [busy_shift t h.wf hi hn]
    simp
  · intro a b ha hb1 hba hbb hk
    rw [busy_shift t h.wf hi hn] at hba hbb
    rw [slot_shift t h.wf hi, slot_shift t h.wf hi] at hk
    have han : a ≠ (i + 1) % t.capacity_ := by
      intro e1; simp [e1] at hba
    have hbn : b ≠ (i + 1) % t.capacity_ := by
      intro e1; simp [e1] at hbb
    simp only [han, hbn, if_false] at hba hbb
    by_cases h1 : a = i <;> by_cases h2 : b = i
    · rw [h1, h2]
    · simp only [h1, h2, if_true, if_false] at hk hbb
      exact absurd (h.uniq _ b hn hb1 hb hbb hk) (Ne.symm hbn)
    · simp only [h1, h2, if_true, if_false] at hk hba
      exact absurd (h.uniq a _ ha hn hba hb hk) han
    · simp only [h1, h2, if_false] at hk hba hbb
      exact h.uniq a b ha hb1 hba hbb hk
  · intro j hj hjn hbs hpos
    change ({ t with
        data_ := t.data_.set i (t.slot ((i + 1) % t.capacity_))
        is_busy_ := (t.is_busy_.set i true).set ((i + 1) % t.capacity_) false } :
      HashMap K V).busy ((j + 1) % t.capacity_) = true at hbs
    change 0 < ({ t with
        data_ := t.data_.set i (t.slot ((i + 1) % t.capacity_))
        is_busy_ := (t.is_busy_.set i true).set ((i + 1) % t.capacity_) false } :
      HashMap K V).probeDist ((j + 1) % t.capacity_) at hpos
    change _ ∧ ({ t with
        data_ := t.data_.set i (t.slot ((i + 1) % t.capacity_))
        is_busy_ := (t.is_busy_.set i true).set ((i + 1) % t.capacity_) false } :
      HashMap K V).probeDist ((j + 1) % t.capacity_) ≤ _
    rw [busy_shift t h.wf hi hn] at hbs ⊢
    rw [probeDist_shift t h.wf hi] at hpos ⊢
    rw [probeDist_shift t h.wf hi]
    have hsj : (j + 1) % t.capacity_ ≠ j := succ_mod_ne (by omega) hj
    have hsn : (j + 1) % t.capacity_ ≠ (i + 1) % t.capacity_ := by
      intro e1; simp [e1] at hbs
    simp only [hsn, if_false, hjn] at hbs ⊢
    by_cases h1 : (j + 1) % t.capacity_ = i
    · have hji : j ≠ i := fun e1 => hsj (by rw [h1, e1])
      simp only [h1, if_true, hji, if_false] at hpos ⊢
      obtain ⟨h3, h4⟩ := h.gap hb (by omega) j hj h1
      exact ⟨h3, by omega⟩
    · have hji : j ≠ i := fun e1 => hsn (by rw [e1])
      simp only [h1, if_false, hji] at hpos hbs ⊢
      exact h.ord j hj hji hbs hpos
  · intro hbs hpos q hq hqn
    have hqi : q = i := succ_mod_inj hq hi hqn
    subst hqi
    change ({ t with
        data_ := t.data_.set q (t.slot ((q + 1) % t.capacity_))
        is_busy_ := (t.is_busy_.set q true).set ((q + 1) % t.capacity_) false } :
      HashMap K V).busy (((q + 1) % t.capacity_ + 1) % t.capacity_) = true at hbs
    change 2 ≤ ({ t with
        data_ := t.data_.set q (t.slot ((q + 1) % t.capacity_))
        is_busy_ := (t.is_busy_.set q true).set ((q + 1) % t.capacity_) false } :
      HashMap K V).probeDist (((q + 1) % t.capacity_ + 1) % t.capacity_) at hpos
    change _ ∧ ({ t with
        data_ := t.data_.set q (t.slot ((q + 1) % t.capacity_))
        is_busy_ := (t.is_busy_.set q true).set ((q + 1) % t.capacity_) false } :
      HashMap K V).probeDist (((q + 1) % t.capacity_ + 1) % t.capacity_) ≤ _
    rw [busy_shift t h.wf hi hn] at hbs ⊢
    rw [probeDist_shift t h.wf hi] at hpos ⊢
    rw [probeDist_shift t h.wf hi]
    simp only [hnn, hnni, if_false, Ne.symm hni, if_true] at hbs hpos ⊢
    obtain ⟨-, h4⟩ := h.ord _ hn hni hbs (by omega)
    exact ⟨trivial, by omega⟩

theorem ShiftInv.exit {t : HashMap K V} {i : Nat} (h : t.ShiftInv i)
    (hx : ¬ (t.busy ((i + 1) % t.capacity_) = true ∧
      t.DistanceToHash (t.slot ((i + 1) % t.capacity_)).1 ((i + 1) % t.capacity_) > 0)) :
    t.Ordered := by
  intro j hj
  by_cases hji : j = i
  · subst hji
    intro hbs hpos
    exact absurd ⟨hbs, hpos⟩ hx
  · exact h.ord j hj hji

theorem Holds_shift (t : HashMap K V) (hw : t.WF) {i n : Nat} (hi : i < t.capacity_)
    (hn : n < t.capacity_) (hni : n ≠ i) (hbi : t.busy i = false) (hbn : t.busy n = true)
    (kv : K × V) :
    ({ t with
        data_ := t.data_.set i (t.slot n)
        is_busy_ := (t.is_busy_.set i true).set n false } : HashMap K V).Holds kv ↔
      t.Holds kv := by
  constructor
  · rintro ⟨j, hj, hbj, hs⟩
    rw [busy_shift t hw hi hn] at hbj
    rw [slot_shift t hw hi] at hs
    have hjn : j ≠ n := by
      intro e1; simp [e1] at hbj
    by_cases h1 : j = i
    · simp only [h1, if_true] at hs
      exact ⟨n, hn, hbn, hs⟩
    · simp only [hjn, h1, if_false] at hs hbj
      exact ⟨j, hj, hbj, hs⟩
  · rintro ⟨j, hj, hbj, hs⟩
    by_cases h1 : j = n
    · subst h1
      refine ⟨i, hi, ?_, ?_⟩
      · rw [busy_shift t hw hi hn]
        simp [Ne.symm hni]
      · rw [slot_shift t hw hi]
        simp [hs]
    · have hji : j ≠ i := by
        intro e1
        rw [e1, hbi] at hbj
        exact Bool.noConfusion hbj
      refine ⟨j, hj, ?_, ?_⟩
      · rw [busy_shift t hw hi hn]
        simp [h1, hji, hbj]
      · rw [slot_shift t hw hi]
        simp [hji, hs]

theorem count_shift (l : List Bool) {i n : Nat} (hi : i < l.length) (hn : n < l.length)
    (hni : n ≠ i) (hbi : l.getD i false = false) (hbn : l.getD n false = true) :
    ((l.set i true).set n false).count true = l.count true := by
  have h1 := count_set_true l i hi hbi
  have h2 := count_set_false (l.set i true) n (by simpa using hn)
    (by rw [getD_set_eq]; simp only [hni, false_and, if_false]; exact hbn)
  omega

/-- The backward shift: the loop ends, it restores the Robin Hood condition everywhere, and the
table holds the pairs it held when the loop started. -/
theorem shiftLoop_spec {e0 : Nat} :
    ∀ m (t : HashMap K V) (i : Nat), t.ShiftInv i → t.size_ = t.is_busy_.count true →
      e0 < t.capacity_ → t.busy e0 = false → e0 ≠ i →
      fwd t.capacity_ ((i + 1) % t.capacity_) e0 = m →
      ∃ t1 : HashMap K V, t1.Core ∧ t1.capacity_ = t.capacity_ ∧ t1.size_ = t.size_ ∧
        t1.hasher_ = t.hasher_ ∧ (∀ kv, t1.Holds kv ↔ t.Holds kv) ∧
        ∀ fuel, m < fuel → shiftLoop fuel t i ((i + 1) % t.capacity_) = some t1 := by
  intro m
  induction m with
  | zero =>
    intro t i h hs he0 hfree _ hm
    have hn : (i + 1) % t.capacity_ < t.capacity_ := succ_mod_lt h.idx
    have hne : (i + 1) % t.capacity_ = e0 := (fwd_eq_zero hn he0).1 hm
    have hx : ¬ (t.busy ((i + 1) % t.capacity_) = true ∧
        t.DistanceToHash (t.slot ((i + 1) % t.capacity_)).1 ((i + 1) % t.capacity_) > 0) := by
      rw [hne, hfree]
      simp
    refine ⟨t, ⟨h.wf, h.cap_ge, hs, h.uniq, h.exit hx⟩, rfl, rfl, rfl, fun _ => Iff.rfl, ?_⟩
    intro fuel hf
    obtain ⟨f, rfl⟩ : ∃ f, fuel = f + 1 := ⟨fuel - 1, by omega⟩
    rw [shiftLoop, if_neg hx]
  | succ m ih =>
    intro t i h hs he0 hfree hei hm
    have hc := h.cap_ge
    have hi := h.idx
    have hn : (i + 1) % t.capacity_ < t.capacity_ := succ_mod_lt hi
    have hni : (i + 1) % t.capacity_ ≠ i := succ_mod_ne (by omega) hi
    have hne : (i + 1) % t.capacity_ ≠ e0 := by
      intro e1
      rw [(fwd_eq_zero hn he0).2 e1] at hm
      omega
    have h1 := fwd_succ_left hn he0 hne
    by_cases hx : (t.busy ((i + 1) % t.capacity_) = true ∧
        t.DistanceToHash (t.slot ((i + 1) % t.capacity_)).1 ((i + 1) % t.capacity_) > 0)
    · obtain ⟨t1, hcore, hcap, hsize, hhash, hholds, hrun⟩ :=
        ih _ _ (h.step hx.1 hx.2)
          (by
            change t.size_ = ((t.is_busy_.set i true).set ((i + 1) % t.capacity_) false).count true
            rw [count_shift _ (by rw [h.wf.busy_len]; exact hi) (by rw [h.wf.busy_len]; exact hn)
              hni h.hole hx.1]
            exact hs)
          he0
          (by
            rw [busy_shift t h.wf hi hn]
            simp only [Ne.symm hne, hei, if_false]
            exact hfree)
          (Ne.symm hne)
          (by
            change fwd t.capacity_ (((i + 1) % t.capacity_ + 1) % t.capacity_) e0 = m
            omega)
      refine ⟨t1, hcore, hcap, hsize, hhash, ?_, ?_⟩
      · intro kv
        rw [hholds kv]
        exact Holds_shift t h.wf hi hn hni h.hole hx.1 kv
      · intro fuel hf
        obtain ⟨f, rfl⟩ : ∃ f, fuel = f + 1 := ⟨fuel - 1, by omega⟩
        rw [shiftLoop, if_pos hx]
        exact hrun f (by omega)
    · refine ⟨t, ⟨h.wf, h.cap_ge, hs, h.uniq, h.exit hx⟩, rfl, rfl, rfl, fun _ => Iff.rfl, ?_⟩
      intro fuel hf
      obtain ⟨f, rfl⟩ : ∃ f, fuel = f + 1 := ⟨fuel - 1, by omega⟩
      rw [shiftLoop, if_neg hx]

/-- The table in which the backward shift starts: the slot of the erased key is marked free and
`size_` is decremented. -/
theorem ShiftInv.at_erased {t : HashMap K V} (h : t.Inv) {p : Nat} (hp : p < t.capacity_)
    (hb : t.busy p = true) :
    (HashMap.mk t.capacity_ (t.size_ - 1) (t.is_busy_.set p false) t.data_ t.hasher_).ShiftInv p ∧
    (HashMap.mk t.capacity_ (t.size_ - 1) (t.is_busy_.set p false) t.data_ t.hasher_).size_ =
      (t.is_busy_.set p false).count true ∧
    (t.size_ - 1) + 1 = t.size_ ∧
    ∀ kv, (HashMap.mk t.capacity_ (t.size_ - 1) (t.is_busy_.set p false) t.data_ t.hasher_).Holds kv
      ↔ (t.Holds kv ∧ kv.1 ≠ (t.slot p).1) := by
  have hc := h.core.cap_ge
  have hcnt := count_set_false t.is_busy_ p (by rw [h.core.wf.busy_len]; exact hp) hb
  have hsz := h.core.size_eq
  have hbusy : ∀ j, (HashMap.mk t.capacity_ (t.size_ - 1) (t.is_busy_.set p false) t.data_
      t.hasher_).busy j = if j = p then false else t.busy j := by
    intro j
    unfold busy
    simp only [getD_set_eq, h.core.wf.busy_len, hp, and_true]
  have hpd : ∀ j, (HashMap.mk t.capacity_ (t.size_ - 1) (t.is_busy_.set p false) t.data_
      t.hasher_).probeDist j = t.probeDist j := fun _ => rfl
  have hslot : ∀ j, (HashMap.mk t.capacity_ (t.size_ - 1) (t.is_busy_.set p false) t.data_
      t.hasher_).slot j = t.slot j := fun _ => rfl
  refine ⟨⟨⟨by simp [h.core.wf.busy_len], h.core.wf.data_len⟩, hc, hp, ?_, ?_, ?_, ?_⟩, ?_, ?_, ?_⟩
  · rw [hbusy]; simp
  · intro a b ha hb1 hba hbb hk
    rw [hbusy] at hba hbb
    have hap : a ≠ p := by intro e1; simp [e1] at hba
    have hbp : b ≠ p := by intro e1; simp [e1] at hbb
    simp only [hap, hbp, if_false] at hba hbb
    exact h.core.uniq a b ha hb1 hba hbb hk
  · intro j hj hjp hbs hpos
    change (HashMap.mk t.capacity_ (t.size_ - 1) (t.is_busy_.set p false) t.data_
      t.hasher_).busy ((j + 1) % t.capacity_) = true at hbs
    change 0 < t.probeDist ((j + 1) % t.capacity_) at hpos
    change _ ∧ t.probeDist ((j + 1) % t.capacity_) ≤ t.probeDist j + 1
    rw [hbusy] at hbs ⊢
    have hsp : (j + 1) % t.capacity_ ≠ p := by intro e1; simp [e1] at hbs
    simp only [hsp, hjp, if_false] at hbs ⊢
    exact h.core.ord j hj hbs hpos
  · intro hbs hpos q hq hqp
    change (HashMap.mk t.capacity_ (t.size_ - 1) (t.is_busy_.set p false) t.data_
      t.hasher_).busy ((p + 1) % t.capacity_) = true at hbs
    change 2 ≤ t.probeDist ((p + 1) % t.capacity_) at hpos
    change _ ∧ t.probeDist ((p + 1) % t.capacity_) ≤ t.probeDist q + 2
    rw [hbusy] at hbs ⊢
    have hsp : (p + 1) % t.capacity_ ≠ p := succ_mod_ne (by omega) hp
    have hqne : q ≠ p := by
      intro e1
      rw [e1] at hqp
      exact hsp hqp
    simp only [hsp, hqne, if_false] at hbs ⊢
    obtain ⟨-, h2⟩ := h.core.ord p hp hbs (by omega)
    obtain ⟨h3, h4⟩ := h.core.ord q hq (by rw [hqp]; exact hb) (by rw [hqp]; omega)
    rw [hqp] at h4
    exact ⟨h3, by omega⟩
  · change t.size_ - 1 = _
    omega
  · omega
  · intro kv
    constructor
    · rintro ⟨j, hj, hbj, hs⟩
      rw [hbusy] at hbj
      have hjp : j ≠ p := by intro e1; simp [e1] at hbj
      simp only [hjp, if_false] at hbj
      rw [hslot] at hs
      refine ⟨⟨j, hj, hbj, hs⟩, ?_⟩
      intro e1
      exact hjp (h.core.uniq j p hj hp hbj hb (by rw [hs, e1]))
    · rintro ⟨⟨j, hj, hbj, hs⟩, hne⟩
      have hjp : j ≠ p := by
        intro e1
        rw [e1] at hs
        exact hne (by rw [hs])
      refine ⟨j, hj, ?_, hs⟩
      rw [hbusy]
      simp only [hjp, if_false]
      exact hbj

theorem shiftLoop_mono :
    ∀ (fuel : Nat) (t : HashMap K V) (i n : Nat) (r : HashMap K V),
      shiftLoop fuel t i n = some r → ∀ fuel1, fuel ≤ fuel1 → shiftLoop fuel1 t i n = some r := by
  intro fuel
  induction fuel with
  | zero =>
    intro t i n r h
    simp [shiftLoop] at h
  | succ f ih =>
    intro t i n r h fuel1 hle
    obtain ⟨f1, rfl⟩ : ∃ f1, fuel1 = f1 + 1 := ⟨fuel1 - 1, by omega⟩
    rw [shiftLoop] at h ⊢
    split_ifs at h ⊢
    · exact ih _ _ _ _ h f1 (by omega)
    · exact h

end EraseLoop

section Erase

variable [DecidableEq K] [Inhabited K] [Inhabited V]

theorem eraseLoop_present (t : HashMap K V) (hu : t.Unique) (ho : t.Ordered) (k : K) {p : Nat}
    (hp : p < t.capacity_) (hb : t.busy p = true) (hk : (t.slot p).1 = k) :
    ∀ m j fuel, j < t.capacity_ → fwd t.capacity_ j p = m → m ≤ t.probeDist p → m < fuel →
      eraseLoop fuel t k j =
        some ({ t with is_busy_ := t.is_busy_.set p false }, p, true) := by
  intro m
  induction m with
  | zero =>
    intro j fuel hj hm _ hf
    have : j = p := (fwd_eq_zero hj hp).1 hm
    subst this
    obtain ⟨f, rfl⟩ : ∃ f, fuel = f + 1 := ⟨fuel - 1, by omega⟩
    simp [eraseLoop, hb, hk]
  | succ m ih =>
    intro j fuel hj hm hle hf
    obtain ⟨f, rfl⟩ : ∃ f, fuel = f + 1 := ⟨fuel - 1, by omega⟩
    have hne : j ≠ p := by
      intro e
      rw [(fwd_eq_zero hj hp).2 e] at hm
      omega
    have h1 := fwd_succ_left hj hp hne
    obtain ⟨hbj, _⟩ := path_occupied t ho hp hb (m + 1) j hj hm hle
    have hkj : ¬ k = (t.slot j).1 := by
      intro e
      exact hne (hu j p hj hp hbj hb (by rw [hk, ← e]))
    rw [eraseLoop]
    simp only [hbj, if_true, hkj, if_false]
    exact ih _ f (succ_mod_lt hj) (by omega) (by omega) (by omega)

theorem eraseLoop_absent (t : HashMap K V) (k : K)
    (ha : ∀ j, j < t.capacity_ → t.busy j = true → (t.slot j).1 ≠ k) {e : Nat}
    (he : e < t.capacity_) (hfree : t.busy e = false) :
    ∀ m j fuel, j < t.capacity_ → fwd t.capacity_ j e = m → m < fuel →
      ∃ i, eraseLoop fuel t k j = some (t, i, false) := by
  intro m
  induction m with
  | zero =>
    intro j fuel hj hm hf
    have : j = e := (fwd_eq_zero hj he).1 hm
    subst this
    obtain ⟨f, rfl⟩ : ∃ f, fuel = f + 1 := ⟨fuel - 1, by omega⟩
    exact ⟨j, by simp [eraseLoop, hfree]⟩
  | succ m ih =>
    intro j fuel hj hm hf
    obtain ⟨f, rfl⟩ : ∃ f, fuel = f + 1 := ⟨fuel - 1, by omega⟩
    have hne : j ≠ e := by
      intro e1
      rw [(fwd_eq_zero hj he).2 e1] at hm
      omega
    have h1 := fwd_succ_left hj he hne
    by_cases hbj : t.busy j = true
    · have hkj : ¬ k = (t.slot j).1 := fun e1 => ha j hj hbj e1.symm
      obtain ⟨i, hi⟩ := ih _ f (succ_mod_lt hj) (by omega) (by omega)
      refine ⟨i, ?_⟩
      rw [eraseLoop]
      simp only [hbj, if_true, hkj, if_false]
      exact hi
    · exact ⟨j, by rw [eraseLoop]; simp [hbj]⟩

/-- Erasing a key that no occupied slot holds returns the table as it was. -/
theorem erase_absent {t : HashMap K V} (h : t.Inv) {k : K}
    (ha : ∀ j, j < t.capacity_ → t.busy j = true → (t.slot j).1 ≠ k) :
    ∀ fuel, t.capacity_ ≤ fuel → erase fuel t k = some t := by
  intro fuel hf
  obtain ⟨e, he, hfree⟩ := h.has_free_slot
  have hh := hash_lt t h.core.cap_ge k
  have hlt := fwd_lt hh he
  obtain ⟨i, hi⟩ := eraseLoop_absent t k ha he hfree _ _ fuel hh rfl (by omega)
  unfold erase
  simp only [hi]
  rfl

/-- Erasing a key that the table holds. -/
theorem erase_present {t : HashMap K V} (h : t.Inv) {k : K} {p : Nat} (hp : p < t.capacity_)
    (hb : t.busy p = true) (hk : (t.slot p).1 = k) :
    ∃ t1 : HashMap K V, t1.Inv ∧ t1.capacity_ = t.capacity_ ∧ t1.size_ + 1 = t.size_ ∧
      t1.hasher_ = t.hasher_ ∧ (∀ kv, t1.Holds kv ↔ (t.Holds kv ∧ kv.1 ≠ k)) ∧
      ∀ fuel, t.capacity_ ≤ fuel → erase fuel t k = some t1 := by
  have hc := h.core.cap_ge
  obtain ⟨e0, he0, hfree⟩ := h.has_free_slot
  have he0p : e0 ≠ p := by
    intro e1
    rw [e1, hb] at hfree
    exact Bool.noConfusion hfree
  obtain ⟨hstart, hsz, hdec, hholds0⟩ := ShiftInv.at_erased h hp hb
  have hn : (p + 1) % t.capacity_ < t.capacity_ := succ_mod_lt hp
  have hlt := fwd_lt hn he0
  obtain ⟨t1, hcore, hcap, hsize, hhash, hholds, hrun⟩ :=
    shiftLoop_spec _ _ p hstart hsz he0
      (by
        have : (t.is_busy_.set p false).getD e0 false = false := by
          rw [getD_set_eq]
          simp only [he0p, false_and, if_false]
          exact hfree
        exact this)
      he0p rfl
  have hsize1 : t1.size_ + 1 = t.size_ := by
    rw [hsize]
    exact hdec
  refine ⟨t1, ⟨hcore, ?_⟩, hcap, hsize1, hhash, ?_, ?_⟩
  · have := h.load
    rw [hcap]
    change 50 * t1.size_ ≤ 21 * t.capacity_
    omega
  · intro kv
    rw [hholds kv, hholds0 kv, hk]
  · intro fuel hf
    have hh := hash_lt t hc k
    have hd : t.probeDist p = fwd t.capacity_ (t.hasher_ k % t.capacity_) p := by
      unfold probeDist
      rw [hk, DistanceToHash_eq_fwd]
    have hlt2 := fwd_lt hh hp
    have hr := eraseLoop_present t h.core.uniq h.core.ord k hp hb hk _ _ fuel hh rfl
      (by omega) (by omega)
    unfold erase
    simp only [hr, if_true]
    exact hrun fuel (by
      change fwd t.capacity_ ((p + 1) % t.capacity_) e0 < fuel
      omega)

theorem eraseLoop_mono :
    ∀ (fuel : Nat) (t : HashMap K V) (k : K) (i : Nat) (r : HashMap K V × Nat × Bool),
      eraseLoop fuel t k i = some r → ∀ fuel1, fuel ≤ fuel1 → eraseLoop fuel1 t k i = some r := by
  intro fuel
  induction fuel with
  | zero =>
    intro t k i r h
    simp [eraseLoop] at h
  | succ f ih =>
    intro t k i r h fuel1 hle
    obtain ⟨f1, rfl⟩ : ∃ f1, fuel1 = f1 + 1 := ⟨fuel1 - 1, by omega⟩
    rw [eraseLoop] at h ⊢
    split_ifs at h ⊢
    · exact h
    · exact ih _ _ _ _ h f1 (by omega)
    · exact h

/-- More fuel does not change what `erase` returns. -/
theorem erase_mono (fuel : Nat) (t : HashMap K V) (k : K) (r : HashMap K V)
    (h : erase fuel t k = some r) (fuel1 : Nat) (hle : fuel ≤ fuel1) :
    erase fuel1 t k = some r := by
  unfold erase at h ⊢
  cases hloop : eraseLoop fuel t k (t.hasher_ k % t.capacity_) with
  | none => rw [hloop] at h; simp at h
  | some x =>
    rw [hloop] at h
    rw [eraseLoop_mono _ _ _ _ _ hloop fuel1 hle]
    obtain ⟨t1, i, d⟩ := x
    simp only at h ⊢
    split_ifs at h ⊢
    · exact shiftLoop_mono _ _ _ _ _ h fuel1 hle
    · exact h

theorem findLoop_mono :
    ∀ (fuel : Nat) (t : HashMap K V) (k : K) (i r : Nat),
      findLoop fuel t k i = some r → ∀ fuel1, fuel ≤ fuel1 → findLoop fuel1 t k i = some r := by
  intro fuel
  induction fuel with
  | zero =>
    intro t k i r h
    simp [findLoop] at h
  | succ f ih =>
    intro t k i r h fuel1 hle
    obtain ⟨f1, rfl⟩ : ∃ f1, fuel1 = f1 + 1 := ⟨fuel1 - 1, by omega⟩
    rw [findLoop] at h ⊢
    split_ifs at h ⊢
    · exact h
    · exact ih _ _ _ _ h f1 (by omega)
    · exact h

end Erase

/-! ## Reachable tables -/

section Reach

variable [DecidableEq K] [Inhabited K] [Inhabited V]

/-- A call of `insert` that returns keeps the invariant and the hash function. -/
theorem Inv.insert {t t1 : HashMap K V} (h : t.Inv) {fuel : Nat} {e : K × V}
    (hr : HashMap.insert fuel t e = some t1) : t1.Inv ∧ t1.hasher_ = t.hasher_ := by
  by_cases hp : ∃ p, p < t.capacity_ ∧ t.busy p = true ∧ (t.slot p).1 = e.1
  · obtain ⟨p, hp1, hb, hk⟩ := hp
    have h1 := insert_present h e hp1 hb hk (max fuel t.capacity_) (le_max_right _ _)
    have h2 := insert_mono _ _ _ _ hr (max fuel t.capacity_) (le_max_left _ _)
    rw [h1] at h2
    cases h2
    exact ⟨h, rfl⟩
  · have ha : ∀ j, j < t.capacity_ → t.busy j = true → (t.slot j).1 ≠ e.1 :=
      fun j hj hbj hk => hp ⟨j, hj, hbj, hk⟩
    obtain ⟨t2, hinv, -, -, hhash, -, hins⟩ := insert_absent h e ha
    have h1 := hins (max fuel (t.capacity_ * 2 + 1)) (by have := le_max_right fuel (t.capacity_ * 2 + 1); omega)
    have h2 := insert_mono _ _ _ _ hr (max fuel (t.capacity_ * 2 + 1)) (le_max_left _ _)
    rw [h1] at h2
    cases h2
    exact ⟨hinv, hhash⟩

/-- A call of `erase` that returns keeps the invariant and the hash function. -/
theorem Inv.erase {t t1 : HashMap K V} (h : t.Inv) {fuel : Nat} {k : K}
    (hr : HashMap.erase fuel t k = some t1) : t1.Inv ∧ t1.hasher_ = t.hasher_ := by
  by_cases hp : ∃ p, p < t.capacity_ ∧ t.busy p = true ∧ (t.slot p).1 = k
  · obtain ⟨p, hp1, hb, hk⟩ := hp
    obtain ⟨t2, hinv, -, -, hhash, -, hrun⟩ := erase_present h hp1 hb hk
    have h1 := hrun (max fuel t.capacity_) (le_max_right _ _)
    have h2 := erase_mono _ _ _ _ hr (max fuel t.capacity_) (le_max_left _ _)
    rw [h1] at h2
    cases h2
    exact ⟨hinv, hhash⟩
  · have ha : ∀ j, j < t.capacity_ → t.busy j = true → (t.slot j).1 ≠ k :=
      fun j hj hbj hk => hp ⟨j, hj, hbj, hk⟩
    have h1 := erase_absent h ha (max fuel t.capacity_) (le_max_right _ _)
    have h2 := erase_mono _ _ _ _ hr (max fuel t.capacity_) (le_max_left _ _)
    rw [h1] at h2
    cases h2
    exact ⟨h, rfl⟩

/-- A call of `operator[]` that returns keeps the invariant and the hash function. -/
theorem Inv.operator_index {t t1 : HashMap K V} (h : t.Inv) {fuel found : Nat} {k : K}
    (hr : HashMap.operator_index fuel t k = some (t1, found)) :
    t1.Inv ∧ t1.hasher_ = t.hasher_ := by
  unfold HashMap.operator_index at hr
  cases hf : find fuel t k with
  | none => rw [hf] at hr; simp at hr
  | some it =>
    rw [hf] at hr
    simp only at hr
    cases hi : (if it = t.end_ then HashMap.insert fuel t (k, default) else some t) with
    | none => rw [hi] at hr; simp at hr
    | some t2 =>
      rw [hi] at hr
      simp only at hr
      cases hf2 : find fuel t2 k with
      | none => rw [hf2] at hr; simp at hr
      | some it2 =>
        rw [hf2] at hr
        simp only [Option.some.injEq, Prod.mk.injEq] at hr
        obtain ⟨rfl, -⟩ := hr
        split_ifs at hi
        · exact h.insert hi
        · cases hi
          exact ⟨h, rfl⟩

/-- Every reachable table satisfies the invariant and carries the hash function it was
constructed with. -/
theorem Reachable.inv {hasher : K → Nat} {t : HashMap K V} (h : Reachable hasher t) :
    t.Inv ∧ t.hasher_ = hasher := by
  induction h with
  | construct => exact ⟨Inv.construct hasher, rfl⟩
  | insert fuel t t1 e _ hr ih =>
    obtain ⟨h1, h2⟩ := ih.1.insert hr
    exact ⟨h1, h2.trans ih.2⟩
  | erase fuel t t1 k _ hr ih =>
    obtain ⟨h1, h2⟩ := ih.1.erase hr
    exact ⟨h1, h2.trans ih.2⟩
  | operator_index fuel t t1 k found _ hr ih =>
    obtain ⟨h1, h2⟩ := ih.1.operator_index hr
    exact ⟨h1, h2.trans ih.2⟩
  | clear t _ ih => exact ⟨Inv.clear t, ih.2⟩
  | assign t b v _ hb _ ih => exact ⟨ih.1.assign hb v, ih.2⟩

end Reach

/-! ## Iteration -/

theorem skipFree_spec (t : HashMap K V) :
    ∀ n i, t.capacity_ - i ≤ n →
      i ≤ t.skipFree n i ∧ (i ≤ t.capacity_ → t.skipFree n i ≤ t.capacity_) ∧
      (∀ j, i ≤ j → j < t.skipFree n i → t.busy j = false) ∧
      (t.skipFree n i < t.capacity_ → t.busy (t.skipFree n i) = true) := by
  intro n
  induction n with
  | zero =>
    intro i hn
    refine ⟨le_refl _, fun h => h, fun j h1 h2 => ?_, fun h => ?_⟩
    · simp only [skipFree] at h2; omega
    · simp only [skipFree] at h; omega
  | succ n ih =>
    intro i hn
    rw [skipFree]
    by_cases hc : i < t.capacity_ ∧ ¬ t.busy i = true
    · rw [if_pos hc]
      obtain ⟨h1, h2, h3, h4⟩ := ih (i + 1) (by omega)
      refine ⟨by omega, fun _ => h2 (by omega), fun j hj1 hj2 => ?_, h4⟩
      by_cases hji : j = i
      · subst hji; simpa using hc.2
      · exact h3 j (by omega) hj2
    · rw [if_neg hc]
      refine ⟨le_refl _, fun h => h, fun j h1 h2 => by omega, fun h => ?_⟩
      by_contra hb
      exact hc ⟨h, hb⟩

/-- The occupied indices from `i` on: the first of them is where the skipping loop stops. -/
theorem filter_range_skip (t : HashMap K V) :
    ∀ n i, t.capacity_ - i = n → i ≤ t.capacity_ →
      (List.range' i n).filter (fun j => t.busy j) =
        if t.skipFree n i < t.capacity_ then
          t.skipFree n i ::
            (List.range' (t.skipFree n i + 1) (t.capacity_ - (t.skipFree n i + 1))).filter
              (fun j => t.busy j)
        else [] := by
  intro n
  induction n with
  | zero =>
    intro i hn hi
    have : ¬ t.skipFree 0 i < t.capacity_ := by simp only [skipFree]; omega
    rw [if_neg this]
    rfl
  | succ n ih =>
    intro i hn hi
    have hlt : i < t.capacity_ := by omega
    rw [List.range'_succ, List.filter_cons, skipFree]
    by_cases hb : t.busy i = true
    · have hc : ¬ (i < t.capacity_ ∧ ¬ t.busy i = true) := fun h => h.2 hb
      rw [if_neg hc, if_pos hlt]
      simp only [hb, if_true]
      have : t.capacity_ - (i + 1) = n := by omega
      rw [this]
    · have hc : i < t.capacity_ ∧ ¬ t.busy i = true := ⟨hlt, hb⟩
      rw [if_pos hc]
      simp only [hb]
      exact ih (i + 1) (by omega) (by omega)

/-- Iterating `operator++` from the first occupied index at or after `i` lists the occupied
indices from `i` on and then arrives at `end()`. -/
theorem iterate_next (t : HashMap K V) :
    ∀ len i, i ≤ t.capacity_ →
      ((List.range' i (t.capacity_ - i)).filter (fun j => t.busy j)).length = len →
      (List.range len).map (fun n => (t.next)^[n] (t.skipFree (t.capacity_ - i) i)) =
        (List.range' i (t.capacity_ - i)).filter (fun j => t.busy j) ∧
      (t.next)^[len] (t.skipFree (t.capacity_ - i) i) = t.capacity_ := by
  intro len
  induction len with
  | zero =>
    intro i hi hlen
    have hf := filter_range_skip t (t.capacity_ - i) i rfl hi
    have hnil := List.eq_nil_of_length_eq_zero hlen
    rw [hnil] at hf ⊢
    have hs := skipFree_spec t (t.capacity_ - i) i (le_refl _)
    refine ⟨rfl, ?_⟩
    simp only [Function.iterate_zero, id_eq]
    by_cases hlt : t.skipFree (t.capacity_ - i) i < t.capacity_
    · rw [if_pos hlt] at hf
      exact absurd hf (by simp)
    · have := hs.2.1 hi
      omega
  | succ len ih =>
    intro i hi hlen
    have hf := filter_range_skip t (t.capacity_ - i) i rfl hi
    by_cases hlt : t.skipFree (t.capacity_ - i) i < t.capacity_
    · rw [if_pos hlt] at hf
      rw [hf] at hlen ⊢
      simp only [List.length_cons, Nat.add_right_cancel_iff] at hlen
      obtain ⟨h1, h2⟩ := ih (t.skipFree (t.capacity_ - i) i + 1) (by omega) hlen
      have hnext : t.next (t.skipFree (t.capacity_ - i) i) =
          t.skipFree (t.capacity_ - (t.skipFree (t.capacity_ - i) i + 1))
            (t.skipFree (t.capacity_ - i) i + 1) := rfl
      constructor
      · rw [List.range_succ_eq_map, List.map_cons, List.map_map]
        simp only [Function.iterate_zero, id_eq, List.cons.injEq, true_and]
        rw [← h1]
        apply List.map_congr_left
        intro n _
        simp only [Function.comp_apply, Function.iterate_succ_apply, hnext]
      · rw [Function.iterate_succ_apply, hnext]
        exact h2
    · rw [if_neg hlt] at hf
      rw [hf] at hlen
      simp at hlen

/-! ## The public operations on a table that satisfies the invariant -/

section Public

variable [DecidableEq K] [Inhabited K] [Inhabited V]

theorem find_eq_end_iff {t : HashMap K V} (h : t.Inv) {k : K} {fuel : Nat}
    (hf : t.capacity_ ≤ fuel) :
    find fuel t k = some t.end_ ↔
      ∀ i, i < t.capacity_ → t.busy i = true → (t.slot i).1 ≠ k := by
  constructor
  · intro hfind i hi hb hk
    rw [find_present h hi hb hk hf] at hfind
    simp only [Option.some.injEq, end_] at hfind
    omega
  · intro ha
    exact find_absent h ha hf

/-- What `find` returns before and after an operation that keeps the pairs of all keys other
than `k`: for such a key both calls return, at `end()` together, and at slots with the same pair
otherwise. -/
theorem find_frame {t t1 : HashMap K V} (h : t.Inv) (h1 : t1.Inv) {k : K}
    (hkeep : ∀ kv : K × V, kv.1 ≠ k → (t1.Holds kv ↔ t.Holds kv)) {fuel : Nat}
    (hf : t.capacity_ ≤ fuel) (hf1 : t1.capacity_ ≤ fuel) (k1 : K) (hne : k1 ≠ k) :
    ∃ r r1, find fuel t k1 = some r ∧ find fuel t1 k1 = some r1 ∧
      (r1 = t1.end_ ↔ r = t.end_) ∧ (r ≠ t.end_ → t1.slot r1 = t.slot r) := by
  by_cases hp : ∃ p, p < t.capacity_ ∧ t.busy p = true ∧ (t.slot p).1 = k1
  · obtain ⟨p, hp1, hb, hk⟩ := hp
    obtain ⟨j, hj, hbj, hsj⟩ := (hkeep (t.slot p) (by rw [hk]; exact hne)).2 ⟨p, hp1, hb, rfl⟩
    refine ⟨p, j, find_present h hp1 hb hk hf, find_present h1 hj hbj (by rw [hsj, hk]) hf1,
      ?_, fun _ => hsj⟩
    simp only [end_]
    constructor <;> intro e <;> omega
  · have ha : ∀ i, i < t.capacity_ → t.busy i = true → (t.slot i).1 ≠ k1 :=
      fun i hi hb hk => hp ⟨i, hi, hb, hk⟩
    have ha1 : ∀ i, i < t1.capacity_ → t1.busy i = true → (t1.slot i).1 ≠ k1 := by
      intro i hi hb hk
      obtain ⟨j, hj, hbj, hsj⟩ := (hkeep (t1.slot i) (by rw [hk]; exact hne)).1 ⟨i, hi, hb, rfl⟩
      exact ha j hj hbj (by rw [hsj, hk])
    exact ⟨t.end_, t1.end_, find_absent h ha hf, find_absent h1 ha1 hf1,
      ⟨fun _ => rfl, fun _ => rfl⟩, fun e => absurd rfl e⟩

/-- Everything a call `insert({k, v})` with a new key `k` does. -/
theorem insert_absent_full {t : HashMap K V} (h : t.Inv) (k : K) (v : V)
    (ha : ∀ i, i < t.capacity_ → t.busy i = true → (t.slot i).1 ≠ k) {fuel : Nat}
    (hf : t.capacity_ * 2 < fuel) :
    ∃ t1 : HashMap K V, insert fuel t (k, v) = some t1 ∧ t1.Inv ∧
      t1.capacity_ = (if exceedsLoad (t.size_ + 1) t.capacity_ then t.capacity_ * 2
        else t.capacity_) ∧
      t1.capacity_ ≤ fuel ∧
      (∃ i, i < t1.capacity_ ∧ t1.busy i = true ∧ find fuel t1 k = some i ∧ t1.slot i = (k, v)) ∧
      t1.size_ = t.size_ + 1 ∧
      (∀ kv, t1.Holds kv ↔ (t.Holds kv ∨ kv = (k, v))) ∧
      ∀ k1, k1 ≠ k → ∃ r r1, find fuel t k1 = some r ∧ find fuel t1 k1 = some r1 ∧
        (r1 = t1.end_ ↔ r = t.end_) ∧ (r ≠ t.end_ → t1.slot r1 = t.slot r) := by
  obtain ⟨t1, hinv, hcap, hsize, -, hholds, hins⟩ := insert_absent h (k, v) ha
  have hcf : t1.capacity_ ≤ fuel := by
    rw [hcap]
    split_ifs <;> omega
  obtain ⟨i, hi, hb, hs⟩ := (hholds (k, v)).2 (Or.inr rfl)
  refine ⟨t1, hins fuel hf, hinv, hcap, hcf,
    ⟨i, hi, hb, find_present hinv hi hb (by rw [hs]) hcf, hs⟩, hsize, hholds, ?_⟩
  intro k1 hne
  refine find_frame h hinv ?_ (by omega) hcf k1 hne
  intro kv hkv
  rw [hholds kv]
  constructor
  · rintro (h1 | h1)
    · exact h1
    · exact absurd (by rw [h1]) hkv
  · exact Or.inl

end Public

/-! ## The claims -/

section Claims

variable [DecidableEq K] [Inhabited K] [Inhabited V]

/-- C1, round-trip of insert.  In a reachable table that holds no pair with key `k`, the call
`insert({k, v})` returns (with fuel above twice the capacity); afterwards `find(k)` is an
iterator other than `end()` at a slot holding `(k, v)`, `size()` is one more than before, and for
every other key `find` returns `end()` exactly if it did before and otherwise a slot with the
same pair, whether or not residents were displaced or the table has grown. -/
theorem insert_round_trip (hasher : K → Nat) (t : HashMap K V) (hr : Reachable hasher t)
    (k : K) (v : V)
    (habsent : ∀ i, i < t.capacity_ → t.busy i = true → (t.slot i).1 ≠ k)
    (fuel : Nat) (hfuel : t.capacity_ * 2 < fuel) :
    ∃ t1 : HashMap K V, insert fuel t (k, v) = some t1 ∧
      (∃ i, find fuel t1 k = some i ∧ i ≠ t1.end_ ∧ t1.slot i = (k, v)) ∧
      t1.size = t.size + 1 ∧
      ∀ k1, k1 ≠ k → ∃ r r1, find fuel t k1 = some r ∧ find fuel t1 k1 = some r1 ∧
        (r1 = t1.end_ ↔ r = t.end_) ∧ (r ≠ t.end_ → (t1.slot r1).2 = (t.slot r).2) := by
  obtain ⟨t1, hins, -, -, -, ⟨i, hi, -, hfind, hs⟩, hsize, -, hothers⟩ :=
    insert_absent_full hr.inv.1 k v habsent hfuel
  refine ⟨t1, hins, ⟨i, hfind, by simp only [end_]; omega, hs⟩, hsize, ?_⟩
  intro k1 hne
  obtain ⟨r, r1, h1, h2, h3, h4⟩ := hothers k1 hne
  exact ⟨r, r1, h1, h2, h3, fun hx => by rw [h4 hx]⟩

/-- C2, first write wins.  In a reachable table whose occupied slot `i` holds `(k, v1)`, the call
`insert({k, v2})` returns the table unchanged in every member, so no swap was made on the way to
`k`, and `find(k)` is still the iterator at slot `i`, whose value is `v1`. -/
theorem insert_first_write_wins (hasher : K → Nat) (t : HashMap K V) (hr : Reachable hasher t)
    (k : K) (v1 v2 : V) (i : Nat) (hi : i < t.capacity_) (hb : t.busy i = true)
    (hs : t.slot i = (k, v1)) (fuel : Nat) (hfuel : t.capacity_ ≤ fuel) :
    insert fuel t (k, v2) = some t ∧ find fuel t k = some i ∧ (t.slot i).2 = v1 :=
  ⟨insert_present hr.inv.1 (k, v2) hi hb (by rw [hs]) fuel hfuel,
    find_present hr.inv.1 hi hb (by rw [hs]) hfuel, by rw [hs]⟩

/-- C3, find agrees with a full scan.  In a reachable table `find(key)` returns (with fuel at
least the capacity) the result of the full scan `scanFind`; the returned bucket id is `i` below
the capacity exactly if slot `i` is occupied and holds `key`, and it is `end()` exactly if no
occupied slot holds `key`. -/
theorem find_agrees_with_scan (hasher : K → Nat) (t : HashMap K V) (hr : Reachable hasher t)
    (k : K) (fuel : Nat) (hfuel : t.capacity_ ≤ fuel) :
    ∃ r, find fuel t k = some r ∧ r = scanFind t k ∧
      (∀ i, i < t.capacity_ → (r = i ↔ (t.busy i = true ∧ (t.slot i).1 = k))) ∧
      (r = t.end_ ↔ ∀ i, i < t.capacity_ → t.busy i = true → (t.slot i).1 ≠ k) := by
  have h := hr.inv.1
  by_cases hp : ∃ p, p < t.capacity_ ∧ t.busy p = true ∧ (t.slot p).1 = k
  · obtain ⟨p, hp1, hb, hk⟩ := hp
    refine ⟨p, find_present h hp1 hb hk hfuel, (scanFind_present h.core.uniq hp1 hb hk).symm,
      ?_, ?_⟩
    · intro i hi
      constructor
      · intro e
        subst e
        exact ⟨hb, hk⟩
      · intro ⟨hbi, hki⟩
        exact h.core.uniq p i hp1 hi hb hbi (by rw [hk, hki])
    · simp only [end_]
      constructor
      · intro e
        omega
      · intro ha
        exact absurd hk (ha p hp1 hb)
  · have ha : ∀ i, i < t.capacity_ → t.busy i = true → (t.slot i).1 ≠ k :=
      fun i hi hb hk => hp ⟨i, hi, hb, hk⟩
    refine ⟨t.capacity_, find_absent h ha hfuel, (scanFind_absent ha).symm, ?_, ?_⟩
    · intro i hi
      constructor
      · intro e
        omega
      · intro ⟨hbi, hki⟩
        exact absurd hki (ha i hi hbi)
    · simp only [end_, true_iff]
      exact ha

/-- C4, erase of a present key.  In a reachable table whose occupied slot `i` holds key `k`, the
call `erase(k)` returns (with fuel at least the capacity); afterwards `find(k)` is `end()`,
`size()` is one less, the capacity is the same, and every other key that was stored is found at
a slot holding the pair it had; the table holds exactly the pairs it held with a key other than
`k`. -/
theorem erase_present_key (hasher : K → Nat) (t : HashMap K V) (hr : Reachable hasher t)
    (k : K) (i : Nat) (hi : i < t.capacity_) (hb : t.busy i = true) (hk : (t.slot i).1 = k)
    (fuel : Nat) (hfuel : t.capacity_ ≤ fuel) :
    ∃ t1 : HashMap K V, erase fuel t k = some t1 ∧ find fuel t1 k = some t1.end_ ∧
      t1.size + 1 = t.size ∧ t1.capacity_ = t.capacity_ ∧
      (∀ j, j < t.capacity_ → t.busy j = true → (t.slot j).1 ≠ k →
        ∃ j1, j1 < t1.capacity_ ∧ find fuel t1 (t.slot j).1 = some j1 ∧ t1.slot j1 = t.slot j) ∧
      ∀ kv, t1.Holds kv ↔ (t.Holds kv ∧ kv.1 ≠ k) := by
  obtain ⟨t1, hinv, hcap, hsize, -, hholds, hrun⟩ := erase_present hr.inv.1 hi hb hk
  have hcf : t1.capacity_ ≤ fuel := by rw [hcap]; exact hfuel
  refine ⟨t1, hrun fuel hfuel, ?_, hsize, hcap, ?_, hholds⟩
  · apply find_absent hinv _ hcf
    intro j hj hbj hkj
    exact ((hholds (t1.slot j)).1 ⟨j, hj, hbj, rfl⟩).2 hkj
  · intro j hj hbj hkj
    obtain ⟨j1, hj1, hb1, hs1⟩ := (hholds (t.slot j)).2 ⟨⟨j, hj, hbj, rfl⟩, hkj⟩
    exact ⟨j1, hj1, find_present hinv hj1 hb1 (by rw [hs1]) hcf, hs1⟩

/-- C5, erase of an absent key.  In a reachable table that holds no pair with key `k`, the call
`erase(k)` returns the table unchanged in every member: size, capacity, occupancy markers and
stored pairs. -/
theorem erase_absent_key (hasher : K → Nat) (t : HashMap K V) (hr : Reachable hasher t)
    (k : K) (habsent : ∀ i, i < t.capacity_ → t.busy i = true → (t.slot i).1 ≠ k)
    (fuel : Nat) (hfuel : t.capacity_ ≤ fuel) :
    erase fuel t k = some t :=
  erase_absent hr.inv.1 habsent fuel hfuel

/-- C6, growth.  In a reachable table of capacity `c` that holds no pair with key `k` and whose
size plus one exceeds `0.42 * c`, the call `insert({k, v})` returns a table of capacity exactly
`2 * c` and of size one more than before, in which `find` returns, for every pair stored before
and for `(k, v)`, a slot holding that pair. -/
theorem insert_growth (hasher : K → Nat) (t : HashMap K V) (hr : Reachable hasher t)
    (k : K) (v : V)
    (habsent : ∀ i, i < t.capacity_ → t.busy i = true → (t.slot i).1 ≠ k)
    (hgrow : exceedsLoad (t.size_ + 1) t.capacity_ = true)
    (fuel : Nat) (hfuel : t.capacity_ * 2 < fuel) :
    ∃ t1 : HashMap K V, insert fuel t (k, v) = some t1 ∧ t1.capacity_ = 2 * t.capacity_ ∧
      t1.size = t.size + 1 ∧
      ∀ kv, (t.Holds kv ∨ kv = (k, v)) →
        ∃ j, j < t1.capacity_ ∧ find fuel t1 kv.1 = some j ∧ t1.slot j = kv := by
  obtain ⟨t1, hins, hinv, hcap, hcf, -, hsize, hholds, -⟩ :=
    insert_absent_full hr.inv.1 k v habsent hfuel
  rw [hgrow] at hcap
  refine ⟨t1, hins, by rw [hcap]; simp only [if_true]; omega, hsize, ?_⟩
  intro kv hkv
  obtain ⟨j, hj, hbj, hsj⟩ := (hholds kv).2 hkv
  exact ⟨j, hj, find_present hinv hj hbj (by rw [hsj]) hcf, hsj⟩

/-- C7, `at` fails exactly for absent keys.  In a reachable table `at(key)` returns (with fuel at
least the capacity); the outcome is the exception `std::out_of_range` exactly if no occupied slot
holds `key`, and it is the value stored with `key` otherwise.  The method is `const`: it has no
table to return. -/
theorem at_fails_iff_absent (hasher : K → Nat) (t : HashMap K V) (hr : Reachable hasher t)
    (k : K) (fuel : Nat) (hfuel : t.capacity_ ≤ fuel) :
    ∃ r, at_ fuel t k = some r ∧
      ((r = Except.error "needed key not found in hash_map") ↔
        ∀ i, i < t.capacity_ → t.busy i = true → (t.slot i).1 ≠ k) ∧
      ∀ i, i < t.capacity_ → t.busy i = true → (t.slot i).1 = k → r = Except.ok (t.slot i).2 := by
  have h := hr.inv.1
  by_cases hp : ∃ p, p < t.capacity_ ∧ t.busy p = true ∧ (t.slot p).1 = k
  · obtain ⟨p, hp1, hb, hk⟩ := hp
    have hne : ¬ p = t.end_ := by simp only [end_]; omega
    refine ⟨Except.ok (t.slot p).2, ?_, ?_, ?_⟩
    · unfold at_
      rw [find_present h hp1 hb hk hfuel]
      simp only [hne, if_false]
    · constructor
      · intro e
        exact Except.noConfusion e
      · intro ha
        exact absurd hk (ha p hp1 hb)
    · intro i hi hbi hki
      rw [h.core.uniq p i hp1 hi hb hbi (by rw [hk, hki])]
  · have ha : ∀ i, i < t.capacity_ → t.busy i = true → (t.slot i).1 ≠ k :=
      fun i hi hb hk => hp ⟨i, hi, hb, hk⟩
    refine ⟨Except.error "needed key not found in hash_map", ?_, ?_, ?_⟩
    · unfold at_
      rw [find_absent h ha hfuel]
      simp only [end_, if_true]
    · simp only [true_iff]
      exact ha
    · intro i hi hbi hki
      exact absurd hki (ha i hi hbi)

/-- C8, `operator[]` inserts on a miss only.  In a reachable table: if an occupied slot `i` holds
`key`, `operator[](key)` returns the table unchanged and the reference denotes the value of slot
`i`; if no occupied slot holds `key`, it returns a table in which the reference denotes the value
of an occupied slot holding `key` with the default value, `size()` is one more than before, and
for every other key `find` returns `end()` exactly if it did before and otherwise a slot with
the same value. -/
theorem operator_index_inserts_on_miss (hasher : K → Nat) (t : HashMap K V)
    (hr : Reachable hasher t) (k : K) (fuel : Nat) (hfuel : t.capacity_ * 2 < fuel) :
    (∀ i, i < t.capacity_ → t.busy i = true → (t.slot i).1 = k →
      operator_index fuel t k = some (t, i)) ∧
    ((∀ i, i < t.capacity_ → t.busy i = true → (t.slot i).1 ≠ k) →
      ∃ (t1 : HashMap K V) (j : Nat), operator_index fuel t k = some (t1, j) ∧
        j < t1.capacity_ ∧ t1.busy j = true ∧ t1.slot j = (k, default) ∧
        t1.size = t.size + 1 ∧
        ∀ k1, k1 ≠ k → ∃ r r1, find fuel t k1 = some r ∧ find fuel t1 k1 = some r1 ∧
          (r1 = t1.end_ ↔ r = t.end_) ∧ (r ≠ t.end_ → (t1.slot r1).2 = (t.slot r).2)) := by
  have h := hr.inv.1
  constructor
  · intro i hi hb hk
    have hne : ¬ i = t.end_ := by simp only [end_]; omega
    unfold operator_index
    rw [find_present h hi hb hk (by omega)]
    simp only [hne, if_false]
    rw [find_present h hi hb hk (by omega)]
  · intro ha
    obtain ⟨t1, hins, -, -, -, ⟨j, hj, hbj, hfind, hs⟩, hsize, -, hothers⟩ :=
      insert_absent_full h k (default : V) ha hfuel
    refine ⟨t1, j, ?_, hj, hbj, hs, hsize, ?_⟩
    · unfold operator_index
      rw [find_absent h ha (by omega)]
      simp only [end_, if_true]
      rw [hins]
      simp only
      rw [hfind]
    · intro k1 hne
      obtain ⟨r, r1, h1, h2, h3, h4⟩ := hothers k1 hne
      exact ⟨r, r1, h1, h2, h3, fun hx => by rw [h4 hx]⟩

/-- C9, iteration completeness.  In a reachable table `begin()` is the smallest occupied index,
and `end()` if the table is empty; the bucket ids reached from `begin()` by fewer than `size()`
applications of `operator++` are, in this order, the occupied indices in increasing order, none
of them is `end()`, and the application number `size()` arrives at `end()`; so every stored key
is visited exactly once. -/
theorem iteration_complete (hasher : K → Nat) (t : HashMap K V) (hr : Reachable hasher t) :
    (∀ i, i < t.begin → t.busy i = false) ∧ (t.begin < t.end_ → t.busy t.begin = true) ∧
    t.begin ≤ t.end_ ∧ (t.empty = true → t.begin = t.end_) ∧
    t.visited = (List.range t.capacity_).filter (fun i => t.busy i) ∧
    (t.next)^[t.size] t.begin = t.end_ ∧
    (∀ n, n < t.size → (t.next)^[n] t.begin ≠ t.end_) ∧
    t.visited.length = t.size ∧
    t.visited.Pairwise (fun a b => a < b) ∧
    (∀ i, i ∈ t.visited ↔ (i < t.capacity_ ∧ t.busy i = true)) ∧
    (t.visited.map (fun i => (t.slot i).1)).Nodup ∧
    ∀ k, (∃ i, i < t.capacity_ ∧ t.busy i = true ∧ (t.slot i).1 = k) ↔
      k ∈ t.visited.map (fun i => (t.slot i).1) := by
  have h := hr.inv.1
  have hlen : ((List.range' 0 (t.capacity_ - 0)).filter (fun j => t.busy j)).length = t.size_ := by
    rw [h.core.size_eq, ← h.core.wf.busy_len, Nat.sub_zero, ← List.range_eq_range']
    exact filter_busy_length t.is_busy_
  obtain ⟨hvis, hend⟩ := iterate_next t t.size_ 0 (Nat.zero_le _) hlen
  rw [Nat.sub_zero, ← List.range_eq_range'] at hvis
  have hvis1 : t.visited = (List.range t.capacity_).filter (fun i => t.busy i) := hvis
  have hmem : ∀ i, i ∈ t.visited ↔ (i < t.capacity_ ∧ t.busy i = true) := by
    intro i
    rw [hvis1, List.mem_filter, List.mem_range]
  obtain ⟨-, hs2, hs3, hs4⟩ := skipFree_spec t t.capacity_ 0 (by omega)
  refine ⟨fun i hi => hs3 i (Nat.zero_le _) hi, hs4, hs2 (Nat.zero_le _), ?_, hvis1, hend, ?_,
    by simp [visited, size], ?_, hmem, ?_, ?_⟩
  · intro he
    have h0 : t.size_ = 0 := by simpa [empty] using he
    rw [h0] at hend
    exact hend
  · intro n hn
    have : (t.next)^[n] t.begin ∈ t.visited := by
      unfold visited
      rw [List.mem_map]
      exact ⟨n, List.mem_range.2 hn, rfl⟩
    have := (hmem _).1 this
    simp only [end_]
    omega
  · rw [hvis1]
    exact (List.pairwise_lt_range _).filter _
  · rw [hvis1]
    apply List.Nodup.map_on
    · intro a ha b hb hk
      rw [List.mem_filter, List.mem_range] at ha hb
      exact h.core.uniq a b ha.1 hb.1 ha.2 hb.2 hk
    · exact (List.nodup_range _).filter _
  · intro k
    rw [List.mem_map]
    constructor
    · rintro ⟨i, hi, hb, hk⟩
      exact ⟨i, (hmem i).2 ⟨hi, hb⟩, hk⟩
    · rintro ⟨i, hi, hk⟩
      have := (hmem i).1 hi
      exact ⟨i, this.1, this.2, hk⟩

/-- C10, uniqueness.  In a table reachable from the empty table by `insert`, `erase`,
`operator[]` and `clear`, two different occupied slots hold different keys. -/
theorem reachable_keys_unique (hasher : K → Nat) (t : HashMap K V) (hr : Reachable hasher t)
    (i j : Nat) (hi : i < t.capacity_) (hj : j < t.capacity_) (hbi : t.busy i = true)
    (hbj : t.busy j = true) (hne : i ≠ j) : (t.slot i).1 ≠ (t.slot j).1 :=
  fun hk => hne (hr.inv.1.core.uniq i j hi hj hbi hbj hk)

end Claims

/-! ## The claims at a concrete table -/

theorem exampleTable_reachable : Reachable exampleHash exampleTable :=
  Reachable.insert 9 _ _ (2, 20) (Reachable.insert 5 _ _ (1, 10) Reachable.construct rfl) rfl

theorem exampleTable3_reachable : Reachable exampleHash exampleTable3 :=
  Reachable.insert 9 _ _ (3, 30) exampleTable_reachable rfl

theorem insert_round_trip_witness :
    (∀ i, i < exampleTable.capacity_ → exampleTable.busy i = true →
      (exampleTable.slot i).1 ≠ 3) ∧
    ∃ t1 : HashMap Nat Nat, insert 17 exampleTable (3, 30) = some t1 ∧
      (∃ i, find 17 t1 3 = some i ∧ i ≠ t1.end_ ∧ t1.slot i = (3, 30)) ∧
      t1.size = exampleTable.size + 1 ∧
      ∀ k1, k1 ≠ 3 → ∃ r r1, find 17 exampleTable k1 = some r ∧ find 17 t1 k1 = some r1 ∧
        (r1 = t1.end_ ↔ r = exampleTable.end_) ∧
        (r ≠ exampleTable.end_ → (t1.slot r1).2 = (exampleTable.slot r).2) :=
  ⟨by decide,
    insert_round_trip exampleHash exampleTable exampleTable_reachable 3 30 (by decide) 17
      (by decide)⟩

theorem insert_first_write_wins_witness :
    exampleTable.slot 1 = (2, 20) ∧
    (insert 8 exampleTable (2, 99) = some exampleTable ∧ find 8 exampleTable 2 = some 1 ∧
      (exampleTable.slot 1).2 = 20) :=
  ⟨rfl,
    insert_first_write_wins exampleHash exampleTable exampleTable_reachable 2 20 99 1
      (by decide) rfl rfl 8 (by decide)⟩

theorem find_agrees_with_scan_witness :
    ∃ r, find 8 exampleTable 2 = some r ∧ r = scanFind exampleTable 2 ∧
      (∀ i, i < exampleTable.capacity_ →
        (r = i ↔ (exampleTable.busy i = true ∧ (exampleTable.slot i).1 = 2))) ∧
      (r = exampleTable.end_ ↔
        ∀ i, i < exampleTable.capacity_ → exampleTable.busy i = true →
          (exampleTable.slot i).1 ≠ 2) :=
  find_agrees_with_scan exampleHash exampleTable exampleTable_reachable 2 8 (by decide)

theorem erase_present_key_witness :
    (exampleTable.busy 0 = true ∧ (exampleTable.slot 0).1 = 1) ∧
    ∃ t1 : HashMap Nat Nat, erase 8 exampleTable 1 = some t1 ∧ find 8 t1 1 = some t1.end_ ∧
      t1.size + 1 = exampleTable.size ∧ t1.capacity_ = exampleTable.capacity_ ∧
      (∀ j, j < exampleTable.capacity_ → exampleTable.busy j = true →
        (exampleTable.slot j).1 ≠ 1 →
        ∃ j1, j1 < t1.capacity_ ∧ find 8 t1 (exampleTable.slot j).1 = some j1 ∧
          t1.slot j1 = exampleTable.slot j) ∧
      ∀ kv, t1.Holds kv ↔ (exampleTable.Holds kv ∧ kv.1 ≠ 1) :=
  ⟨⟨rfl, rfl⟩,
    erase_present_key exampleHash exampleTable exampleTable_reachable 1 0 (by decide) rfl rfl 8
      (by decide)⟩

theorem erase_absent_key_witness :
    (∀ i, i < exampleTable.capacity_ → exampleTable.busy i = true →
      (exampleTable.slot i).1 ≠ 7) ∧
    erase 8 exampleTable 7 = some exampleTable :=
  ⟨by decide,
    erase_absent_key exampleHash exampleTable exampleTable_reachable 7 (by decide) 8
      (by decide)⟩

theorem insert_growth_witness :
    ((∀ i, i < exampleTable3.capacity_ → exampleTable3.busy i = true →
        (exampleTable3.slot i).1 ≠ 4) ∧
      exceedsLoad (exampleTable3.size_ + 1) exampleTable3.capacity_ = true) ∧
    ∃ t1 : HashMap Nat Nat, insert 17 exampleTable3 (4, 40) = some t1 ∧
      t1.capacity_ = 2 * exampleTable3.capacity_ ∧ t1.size = exampleTable3.size + 1 ∧
      ∀ kv, (exampleTable3.Holds kv ∨ kv = (4, 40)) →
        ∃ j, j < t1.capacity_ ∧ find 17 t1 kv.1 = some j ∧ t1.slot j = kv :=
  ⟨⟨by decide, by decide⟩,
    insert_growth exampleHash exampleTable3 exampleTable3_reachable 4 40 (by decide)
      (by decide) 17 (by decide)⟩

theorem at_fails_iff_absent_witness :
    ∃ r, at_ 8 exampleTable 7 = some r ∧
      ((r = Except.error "needed key not found in hash_map") ↔
        ∀ i, i < exampleTable.capacity_ → exampleTable.busy i = true →
          (exampleTable.slot i).1 ≠ 7) ∧
      ∀ i, i < exampleTable.capacity_ → exampleTable.busy i = true →
        (exampleTable.slot i).1 = 7 → r = Except.ok (exampleTable.slot i).2 :=
  at_fails_iff_absent exampleHash exampleTable exampleTable_reachable 7 8 (by decide)

theorem operator_index_inserts_on_miss_witness :
    (∀ i, i < exampleTable.capacity_ → exampleTable.busy i = true →
      (exampleTable.slot i).1 = 5 → operator_index 17 exampleTable 5 = some (exampleTable, i)) ∧
    ((∀ i, i < exampleTable.capacity_ → exampleTable.busy i = true →
        (exampleTable.slot i).1 ≠ 5) →
      ∃ (t1 : HashMap Nat Nat) (j : Nat), operator_index 17 exampleTable 5 = some (t1, j) ∧
        j < t1.capacity_ ∧ t1.busy j = true ∧ t1.slot j = (5, default) ∧
        t1.size = exampleTable.size + 1 ∧
        ∀ k1, k1 ≠ 5 → ∃ r r1, find 17 exampleTable k1 = some r ∧ find 17 t1 k1 = some r1 ∧
          (r1 = t1.end_ ↔ r = exampleTable.end_) ∧
          (r ≠ exampleTable.end_ → (t1.slot r1).2 = (exampleTable.slot r).2)) :=
  operator_index_inserts_on_miss exampleHash exampleTable exampleTable_reachable 5 17
    (by decide)

theorem iteration_complete_witness :
    (∀ i, i < exampleTable.begin → exampleTable.busy i = false) ∧
    (exampleTable.begin < exampleTable.end_ → exampleTable.busy exampleTable.begin = true) ∧
    exampleTable.begin ≤ exampleTable.end_ ∧
    (exampleTable.empty = true → exampleTable.begin = exampleTable.end_) ∧
    exampleTable.visited =
      (List.range exampleTable.capacity_).filter (fun i => exampleTable.busy i) ∧
    (exampleTable.next)^[exampleTable.size] exampleTable.begin = exampleTable.end_ ∧
    (∀ n, n < exampleTable.size → (exampleTable.next)^[n] exampleTable.begin ≠
      exampleTable.end_) ∧
    exampleTable.visited.length = exampleTable.size ∧
    exampleTable.visited.Pairwise (fun a b => a < b) ∧
    (∀ i, i ∈ exampleTable.visited ↔ (i < exampleTable.capacity_ ∧ exampleTable.busy i = true)) ∧
    (exampleTable.visited.map (fun i => (exampleTable.slot i).1)).Nodup ∧
    ∀ k, (∃ i, i < exampleTable.capacity_ ∧ exampleTable.busy i = true ∧
        (exampleTable.slot i).1 = k) ↔
      k ∈ exampleTable.visited.map (fun i => (exampleTable.slot i).1) :=
  iteration_complete exampleHash exampleTable exampleTable_reachable

theorem reachable_keys_unique_witness :
    (exampleTable.busy 0 = true ∧ exampleTable.busy 1 = true) ∧
    (exampleTable.slot 0).1 ≠ (exampleTable.slot 1).1 :=
  ⟨⟨rfl, rfl⟩,
    reachable_keys_unique exampleHash exampleTable exampleTable_reachable 0 1 (by decide)
      (by decide) rfl rfl (by decide)⟩

/-! ## Capacity and load of reachable tables -/

section Capacity

variable [DecidableEq K] [Inhabited K] [Inhabited V]

/-- On a table with the invariant `insert` returns, whether or not the key is stored. -/
theorem insert_returns {t : HashMap K V} (h : t.Inv) (e : K × V) {fuel : Nat}
    (hf : t.capacity_ * 2 < fuel) : ∃ t1, insert fuel t e = some t1 := by
  by_cases hp : ∃ p, p < t.capacity_ ∧ t.busy p = true ∧ (t.slot p).1 = e.1
  · obtain ⟨p, hp1, hb, hk⟩ := hp
    exact ⟨t, insert_present h e hp1 hb hk fuel (by omega)⟩
  · have ha : ∀ j, j < t.capacity_ → t.busy j = true → (t.slot j).1 ≠ e.1 :=
      fun j hj hbj hk => hp ⟨j, hj, hbj, hk⟩
    obtain ⟨t2, -, -, -, -, -, hins⟩ := insert_absent h e ha
    exact ⟨t2, hins fuel hf⟩

/-- A call of `insert` that returns has kept the capacity or doubled it. -/
theorem insert_capacity {t t1 : HashMap K V} (h : t.Inv) {fuel : Nat} {e : K × V}
    (hr : insert fuel t e = some t1) :
    t1.capacity_ = t.capacity_ ∨ t1.capacity_ = t.capacity_ * 2 := by
  by_cases hp : ∃ p, p < t.capacity_ ∧ t.busy p = true ∧ (t.slot p).1 = e.1
  · obtain ⟨p, hp1, hb, hk⟩ := hp
    have h1 := insert_present h e hp1 hb hk (max fuel t.capacity_) (le_max_right _ _)
    have h2 := insert_mono _ _ _ _ hr (max fuel t.capacity_) (le_max_left _ _)
    rw [h1] at h2
    cases h2
    exact Or.inl rfl
  · have ha : ∀ j, j < t.capacity_ → t.busy j = true → (t.slot j).1 ≠ e.1 :=
      fun j hj hbj hk => hp ⟨j, hj, hbj, hk⟩
    obtain ⟨t2, -, hcap, -, -, -, hins⟩ := insert_absent h e ha
    have h1 := hins (max fuel (t.capacity_ * 2 + 1))
      (by have := le_max_right fuel (t.capacity_ * 2 + 1); omega)
    have h2 := insert_mono _ _ _ _ hr (max fuel (t.capacity_ * 2 + 1)) (le_max_left _ _)
    rw [h1] at h2
    cases h2
    rw [hcap]
    split_ifs
    · exact Or.inr rfl
    · exact Or.inl rfl

/-- A call of `erase` that returns has kept the capacity. -/
theorem erase_capacity {t t1 : HashMap K V} (h : t.Inv) {fuel : Nat} {k : K}
    (hr : erase fuel t k = some t1) : t1.capacity_ = t.capacity_ := by
  by_cases hp : ∃ p, p < t.capacity_ ∧ t.busy p = true ∧ (t.slot p).1 = k
  · obtain ⟨p, hp1, hb, hk⟩ := hp
    obtain ⟨t2, -, hcap, -, -, -, hrun⟩ := erase_present h hp1 hb hk
    have h1 := hrun (max fuel t.capacity_) (le_max_right _ _)
    have h2 := erase_mono _ _ _ _ hr (max fuel t.capacity_) (le_max_left _ _)
    rw [h1] at h2
    cases h2
    exact hcap
  · have ha : ∀ j, j < t.capacity_ → t.busy j = true → (t.slot j).1 ≠ k :=
      fun j hj hbj hk => hp ⟨j, hj, hbj, hk⟩
    have h1 := erase_absent h ha (max fuel t.capacity_) (le_max_right _ _)
    have h2 := erase_mono _ _ _ _ hr (max fuel t.capacity_) (le_max_left _ _)
    rw [h1] at h2
    cases h2
    rfl

/-- A call of `operator[]` that returns has kept the capacity or doubled it. -/
theorem operator_index_capacity {t t1 : HashMap K V} (h : t.Inv) {fuel found : Nat} {k : K}
    (hr : operator_index fuel t k = some (t1, found)) :
    t1.capacity_ = t.capacity_ ∨ t1.capacity_ = t.capacity_ * 2 := by
  unfold operator_index at hr
  cases hf : find fuel t k with
  | none => rw [hf] at hr; simp at hr
  | some it =>
    rw [hf] at hr
    simp only at hr
    cases hi : (if it = t.end_ then insert fuel t (k, default) else some t) with
    | none => rw [hi] at hr; simp at hr
    | some t2 =>
      rw [hi] at hr
      simp only at hr
      cases hf2 : find fuel t2 k with
      | none => rw [hf2] at hr; simp at hr
      | some it2 =>
        rw [hf2] at hr
        simp only [Option.some.injEq, Prod.mk.injEq] at hr
        obtain ⟨rfl, -⟩ := hr
        split_ifs at hi
        · exact insert_capacity h hi
        · cases hi
          exact Or.inl rfl

/-- The capacity of a reachable table is the starting capacity times a power of two. -/
theorem Reachable.capacity_pow {hasher : K → Nat} {t : HashMap K V}
    (h : Reachable hasher t) : ∃ n : Nat, t.capacity_ = 4 * 2 ^ n := by
  induction h with
  | construct => exact ⟨0, rfl⟩
  | insert fuel t t1 e hprev hr ih =>
    obtain ⟨n, hn⟩ := ih
    rcases insert_capacity hprev.inv.1 hr with h1 | h1
    · exact ⟨n, by rw [h1, hn]⟩
    · exact ⟨n + 1, by rw [h1, hn, pow_succ]; ring⟩
  | erase fuel t t1 k hprev hr ih =>
    obtain ⟨n, hn⟩ := ih
    exact ⟨n, by rw [erase_capacity hprev.inv.1 hr, hn]⟩
  | operator_index fuel t t1 k found hprev hr ih =>
    obtain ⟨n, hn⟩ := ih
    rcases operator_index_capacity hprev.inv.1 hr with h1 | h1
    · exact ⟨n, by rw [h1, hn]⟩
    · exact ⟨n + 1, by rw [h1, hn, pow_succ]; ring⟩
  | clear t _ _ => exact ⟨0, rfl⟩
  | assign t b v _ _ _ ih => exact ih

end Capacity

section ClaimsLoad

variable [DecidableEq K] [Inhabited K] [Inhabited V]

/-- C11, load bound.  For a reachable table and any pair, `insert` returns (with fuel above
twice the capacity), and whenever it returns, for a new key or a stored one, with or without
growth, the table satisfies `50 * size <= 21 * capacity`, that is `size <= floor(capacity *
0.42)`.  The bound holds for the empty table and for the table itself, and the tables returned
by `erase`, by `clear` and by the copy constructor satisfy it. -/
theorem load_bound (hasher : K → Nat) (t : HashMap K V) (hr : Reachable hasher t) :
    (∀ (e : K × V) (fuel : Nat), t.capacity_ * 2 < fuel → ∃ t1, insert fuel t e = some t1) ∧
    (∀ (e : K × V) (fuel : Nat) (t1 : HashMap K V), insert fuel t e = some t1 →
      50 * t1.size ≤ 21 * t1.capacity_ ∧ t1.size ≤ 21 * t1.capacity_ / 50) ∧
    50 * (construct hasher : HashMap K V).size ≤ 21 * (construct hasher : HashMap K V).capacity_ ∧
    50 * t.size ≤ 21 * t.capacity_ ∧
    (∀ (k : K) (fuel : Nat) (t1 : HashMap K V), erase fuel t k = some t1 →
      50 * t1.size ≤ 21 * t1.capacity_) ∧
    50 * (clear t).size ≤ 21 * (clear t).capacity_ ∧
    50 * (copy t).size ≤ 21 * (copy t).capacity_ := by
  have h := hr.inv.1
  refine ⟨fun e fuel hf => insert_returns h e hf, ?_, (Inv.construct hasher).load, h.load, ?_,
    (Inv.clear t).load, h.load⟩
  · intro e fuel t1 h1
    have hl := (h.insert h1).1.load
    refine ⟨hl, ?_⟩
    change t1.size_ ≤ 21 * t1.capacity_ / 50
    omega
  · intro k fuel t1 h1
    exact (h.erase h1).1.load

/-- C12, capacity shape.  In a reachable table the capacity is `4 * 2 ^ n` for a natural number
`n`, and the vector of pairs and the vector of occupancy markers both have `capacity_`
entries. -/
theorem capacity_shape (hasher : K → Nat) (t : HashMap K V) (hr : Reachable hasher t) :
    (∃ n : Nat, t.capacity_ = BEGIN_CAPACITY * 2 ^ n) ∧ t.data_.length = t.capacity_ ∧
      t.is_busy_.length = t.capacity_ :=
  ⟨hr.capacity_pow, hr.inv.1.core.wf.data_len, hr.inv.1.core.wf.busy_len⟩

/-- C14 as amended.  In a reachable table a call of `insert`, `erase` or `operator[]` that
returns leaves the capacity at least what it was: `insert` and `operator[]` keep or double it,
`erase` keeps it.  `clear` sets the capacity to the starting capacity 4, which is at most the
capacity before. -/
theorem capacity_after_operations (hasher : K → Nat) (t : HashMap K V)
    (hr : Reachable hasher t) :
    (∀ (e : K × V) (fuel : Nat) (t1 : HashMap K V), insert fuel t e = some t1 →
      t.capacity_ ≤ t1.capacity_ ∧
        (t1.capacity_ = t.capacity_ ∨ t1.capacity_ = t.capacity_ * 2)) ∧
    (∀ (k : K) (fuel : Nat) (t1 : HashMap K V), erase fuel t k = some t1 →
      t1.capacity_ = t.capacity_) ∧
    (∀ (k : K) (fuel found : Nat) (t1 : HashMap K V),
      operator_index fuel t k = some (t1, found) →
      t.capacity_ ≤ t1.capacity_ ∧
        (t1.capacity_ = t.capacity_ ∨ t1.capacity_ = t.capacity_ * 2)) ∧
    (clear t).capacity_ = BEGIN_CAPACITY ∧ (clear t).capacity_ ≤ t.capacity_ := by
  have h := hr.inv.1
  refine ⟨?_, fun k fuel t1 h1 => erase_capacity h h1, ?_, rfl, h.core.cap_ge⟩
  · intro e fuel t1 h1
    have := insert_capacity h h1
    exact ⟨by omega, this⟩
  · intro k fuel found t1 h1
    have := operator_index_capacity h h1
    exact ⟨by omega, this⟩

end ClaimsLoad

/-! ## The invariants as the claims state them -/

theorem add_mod_eq {c a m : Nat} (ha : a < c) (hm : m < c) :
    (a + m) % c = if a + m < c then a + m else a + m - c := by
  split_ifs with h
  · exact Nat.mod_eq_of_lt h
  · have h1 : a + m = (a + m - c) + c := by omega
    rw [h1, Nat.add_mod_right, Nat.mod_eq_of_lt (by omega)]
    omega

theorem fwd_add_mod {c a m i : Nat} (ha : a < c) (hi : i < c) (hm : m ≤ fwd c a i) :
    fwd c ((a + m) % c) i + m = fwd c a i ∧ (a + m) % c < c := by
  have hlt := fwd_lt ha hi
  rw [add_mod_eq ha (by omega)]
  unfold fwd at *
  split_ifs at * <;> omega

theorem probeDistance_eq (t : HashMap K V) (hc : 4 ≤ t.capacity_) (key : K) {j : Nat}
    (hj : j < t.capacity_) : t.probeDistance key j = t.DistanceToHash key j := by
  have hh := hash_lt t hc key
  unfold probeDistance DistanceToHash
  simp only
  split_ifs with h
  · have h1 : j + t.capacity_ - t.hasher_ key % t.capacity_ =
        (j - t.hasher_ key % t.capacity_) + t.capacity_ := by omega
    rw [h1, Nat.add_mod_right, Nat.mod_eq_of_lt (by omega)]
  · exact Nat.mod_eq_of_lt (by omega)

section ClaimsInvariants

variable [DecidableEq K] [Inhabited K] [Inhabited V]

/-- The loop of `insert` is left within `capacity_` evaluations of its condition, for a stored
key and for a new one. -/
theorem insertLoop_returns {t : HashMap K V} (h : t.Inv) (e : K × V) {fuel : Nat}
    (hf : t.capacity_ ≤ fuel) :
    ∃ r, insertLoop fuel t e (t.hasher_ e.1 % t.capacity_) = some r := by
  have hc := h.core.cap_ge
  have hh := hash_lt t hc e.1
  by_cases hp : ∃ p, p < t.capacity_ ∧ t.busy p = true ∧ (t.slot p).1 = e.1
  · obtain ⟨p, hp1, hb, hk⟩ := hp
    have hd : t.probeDist p = fwd t.capacity_ (t.hasher_ e.1 % t.capacity_) p := by
      unfold probeDist
      rw [hk, DistanceToHash_eq_fwd]
    have hlt := fwd_lt hh hp1
    exact ⟨_, insertLoop_present t h.core.uniq h.core.ord e hp1 hb hk hc _ _ fuel hh rfl
      (by omega) (by omega)⟩
  · have ha : ∀ j, j < t.capacity_ → t.busy j = true → (t.slot j).1 ≠ e.1 :=
      fun j hj hbj hk => hp ⟨j, hj, hbj, hk⟩
    obtain ⟨e0, he0, hfree⟩ := h.has_free_slot
    have hlt := fwd_lt hh he0
    obtain ⟨t1, j, e1, hrun, -⟩ :=
      insertLoop_absent _ t e _ (InsInv.at_ideal h e ha) he0 hfree rfl
    exact ⟨_, hrun fuel (by omega)⟩

/-- The first loop of `erase` is left within `capacity_` evaluations of its condition. -/
theorem eraseLoop_returns {t : HashMap K V} (h : t.Inv) (k : K) {fuel : Nat}
    (hf : t.capacity_ ≤ fuel) :
    ∃ r, eraseLoop fuel t k (t.hasher_ k % t.capacity_) = some r := by
  have hc := h.core.cap_ge
  have hh := hash_lt t hc k
  by_cases hp : ∃ p, p < t.capacity_ ∧ t.busy p = true ∧ (t.slot p).1 = k
  · obtain ⟨p, hp1, hb, hk⟩ := hp
    have hd : t.probeDist p = fwd t.capacity_ (t.hasher_ k % t.capacity_) p := by
      unfold probeDist
      rw [hk, DistanceToHash_eq_fwd]
    have hlt := fwd_lt hh hp1
    exact ⟨_, eraseLoop_present t h.core.uniq h.core.ord k hp1 hb hk _ _ fuel hh rfl
      (by omega) (by omega)⟩
  · have ha : ∀ j, j < t.capacity_ → t.busy j = true → (t.slot j).1 ≠ k :=
      fun j hj hbj hk => hp ⟨j, hj, hbj, hk⟩
    obtain ⟨e0, he0, hfree⟩ := h.has_free_slot
    have hlt := fwd_lt hh he0
    obtain ⟨i, hi⟩ := eraseLoop_absent t k ha he0 hfree _ _ fuel hh rfl (by omega)
    exact ⟨_, hi⟩

/-- On a table with the invariant `erase` returns with fuel `capacity_`. -/
theorem erase_returns {t : HashMap K V} (h : t.Inv) (k : K) {fuel : Nat}
    (hf : t.capacity_ ≤ fuel) : ∃ t1, erase fuel t k = some t1 := by
  by_cases hp : ∃ p, p < t.capacity_ ∧ t.busy p = true ∧ (t.slot p).1 = k
  · obtain ⟨p, hp1, hb, hk⟩ := hp
    obtain ⟨t2, -, -, -, -, -, hrun⟩ := erase_present h hp1 hb hk
    exact ⟨t2, hrun fuel hf⟩
  · have ha : ∀ j, j < t.capacity_ → t.busy j = true → (t.slot j).1 ≠ k :=
      fun j hj hbj hk => hp ⟨j, hj, hbj, hk⟩
    exact ⟨t, erase_absent h ha fuel hf⟩

/-- On a table with the invariant `find` returns with fuel `capacity_`. -/
theorem find_returns {t : HashMap K V} (h : t.Inv) (k : K) {fuel : Nat}
    (hf : t.capacity_ ≤ fuel) : ∃ r, find fuel t k = some r := by
  by_cases hp : ∃ p, p < t.capacity_ ∧ t.busy p = true ∧ (t.slot p).1 = k
  · obtain ⟨p, hp1, hb, hk⟩ := hp
    exact ⟨p, find_present h hp1 hb hk hf⟩
  · have ha : ∀ j, j < t.capacity_ → t.busy j = true → (t.slot j).1 ≠ k :=
      fun j hj hbj hk => hp ⟨j, hj, hbj, hk⟩
    exact ⟨_, find_absent h ha hf⟩

/-- C17, `clear` resets to the initial table.  After `clear()` the capacity is the starting
capacity 4, `size()` is 0, `empty()` is true, no slot is occupied, `begin()` equals `end()`,
and `find(k)` returns `end()` for every key; the table is the one the constructor builds for the
same hash function.  This holds for every table, reachable or not. -/
theorem clear_resets (t : HashMap K V) :
    (clear t).capacity_ = BEGIN_CAPACITY ∧ BEGIN_CAPACITY = 4 ∧ (clear t).size = 0 ∧
    (clear t).empty = true ∧ (∀ i, (clear t).busy i = false) ∧
    (clear t).begin = (clear t).end_ ∧
    (∀ (k : K) (fuel : Nat), find (fuel + 1) (clear t) k = some (clear t).end_) ∧
    clear t = construct t.hasher_ := by
  have hb : ∀ i, (clear t).busy i = false := fun i => getD_replicate_false 4 i
  refine ⟨rfl, rfl, rfl, rfl, hb, rfl, ?_, rfl⟩
  intro k fuel
  unfold find
  rw [findLoop]
  simp only [hb, Bool.false_eq_true, if_false]

/-- C18, closed hashing.  In a reachable table, for an occupied slot `i` holding key `K` with
ideal slot `hash(K) % capacity`: the slot `(ideal + m) % capacity` is occupied for every `m` up
to the probe distance of `K` at `i`, the last of these slots is `i` itself, and so every slot
`j` that lies on the wraparound path from the ideal slot to `i` is occupied. -/
theorem closed_hashing (hasher : K → Nat) (t : HashMap K V) (hr : Reachable hasher t)
    (i : Nat) (hi : i < t.capacity_) (hb : t.busy i = true) :
    (∀ m, m ≤ t.DistanceToHash (t.slot i).1 i →
      t.busy ((t.hasher_ (t.slot i).1 % t.capacity_ + m) % t.capacity_) = true) ∧
    (t.hasher_ (t.slot i).1 % t.capacity_ + t.DistanceToHash (t.slot i).1 i) % t.capacity_ = i ∧
    (∀ j, j < t.capacity_ → fwd t.capacity_ j i ≤ t.DistanceToHash (t.slot i).1 i →
      t.busy j = true) ∧
    t.hasher_ = hasher := by
  have h := hr.inv.1
  have hc := h.core.cap_ge
  have hh := hash_lt t hc (t.slot i).1
  have hpath : ∀ j, j < t.capacity_ → fwd t.capacity_ j i ≤ t.DistanceToHash (t.slot i).1 i →
      t.busy j = true :=
    fun j hj hle => (path_occupied t h.core.ord hi hb _ j hj rfl hle).1
  refine ⟨?_, ?_, hpath, hr.inv.2⟩
  · intro m hm
    rw [DistanceToHash_eq_fwd] at hm
    obtain ⟨h1, h2⟩ := fwd_add_mod hh hi hm
    exact hpath _ h2 (by rw [DistanceToHash_eq_fwd]; omega)
  · obtain ⟨h1, h2⟩ := fwd_add_mod hh hi (le_refl (fwd t.capacity_ _ i))
    rw [DistanceToHash_eq_fwd]
    exact (fwd_eq_zero h2 hi).1 (by omega)

/-- C19, size bookkeeping.  In a reachable table `size_` is the number of indices whose
occupancy marker is set, it is below the capacity, so some slot is free, and the loops of
`find`, `insert` and `erase` are left within `capacity_` evaluations of their conditions:
with fuel `capacity_` the loop of `insert`, the first loop of `erase`, `find` and `erase`
return. -/
theorem size_bookkeeping (hasher : K → Nat) (t : HashMap K V) (hr : Reachable hasher t) :
    t.size = ((List.range t.capacity_).filter (fun i => t.busy i)).length ∧
    t.size = t.is_busy_.count true ∧ 0 ≤ t.size ∧ t.size < t.capacity_ ∧
    (∃ e, e < t.capacity_ ∧ t.busy e = false) ∧
    (∀ k : K, ∃ r, find t.capacity_ t k = some r) ∧
    (∀ e : K × V, ∃ r, insertLoop t.capacity_ t e (t.hasher_ e.1 % t.capacity_) = some r) ∧
    (∀ k : K, ∃ r, eraseLoop t.capacity_ t k (t.hasher_ k % t.capacity_) = some r) ∧
    (∀ k : K, ∃ t1, erase t.capacity_ t k = some t1) := by
  have h := hr.inv.1
  have hlt := size_lt_of_load t h.core.cap_ge h.load
  refine ⟨?_, h.core.size_eq, Nat.zero_le _, by change t.size_ < _; omega, h.has_free_slot,
    fun k => find_returns h k (le_refl _), fun e => insertLoop_returns h e (le_refl _),
    fun k => eraseLoop_returns h k (le_refl _), fun k => erase_returns h k (le_refl _)⟩
  change t.size_ = _
  rw [h.core.size_eq, ← h.core.wf.busy_len]
  exact (filter_busy_length t.is_busy_).symm

/-- C20, Robin Hood ordering.  In a reachable table, if slot `i` and its wraparound successor
`(i + 1) % capacity` are both occupied, the probe distance of the successor's key is at most
the probe distance of the key of slot `i` plus 1, the probe distance of a key `K` at index `j`
being `(j - hash(K) % capacity + capacity) % capacity`, which is what `DistanceToHash`
computes. -/
theorem robin_hood_ordering (hasher : K → Nat) (t : HashMap K V) (hr : Reachable hasher t)
    (i : Nat) (hi : i < t.capacity_) (_hb : t.busy i = true)
    (hbs : t.busy ((i + 1) % t.capacity_) = true) :
    t.probeDistance (t.slot ((i + 1) % t.capacity_)).1 ((i + 1) % t.capacity_) ≤
      t.probeDistance (t.slot i).1 i + 1 ∧
    ∀ (key : K) (j : Nat), j < t.capacity_ → t.probeDistance key j = t.DistanceToHash key j := by
  have h := hr.inv.1
  have hc := h.core.cap_ge
  refine ⟨?_, fun key j hj => probeDistance_eq t hc key hj⟩
  rw [probeDistance_eq t hc _ (succ_mod_lt hi), probeDistance_eq t hc _ hi]
  by_cases hpos : 0 < t.probeDist ((i + 1) % t.capacity_)
  · exact (h.core.ord i hi hbs hpos).2
  · unfold probeDist at hpos
    omega

end ClaimsInvariants

/-! ## Construction from a sequence -/

section Sequence

variable [DecidableEq K] [Inhabited K] [Inhabited V]

omit [Inhabited K] [Inhabited V] in
theorem firstWithKey_cons_ne (e : K × V) (rest : List (K × V)) {k : K} (h : e.1 ≠ k) :
    firstWithKey (e :: rest) k = firstWithKey rest k := by
  unfold firstWithKey
  rw [List.find?_cons]
  simp [h]

omit [Inhabited K] [Inhabited V] in
theorem firstWithKey_cons_eq (e : K × V) (rest : List (K × V)) :
    firstWithKey (e :: rest) e.1 = some e := by
  unfold firstWithKey
  rw [List.find?_cons]
  simp

omit [Inhabited K] [Inhabited V] in
theorem firstWithKey_some {l : List (K × V)} {k : K} {kv : K × V}
    (h : firstWithKey l k = some kv) : kv ∈ l ∧ kv.1 = k := by
  unfold firstWithKey at h
  have h1 := List.find?_some h
  exact ⟨List.mem_of_find?_eq_some h, by simpa using h1⟩

omit [Inhabited K] [Inhabited V] in
theorem firstWithKey_of_mem {l : List (K × V)} {k : K} (h : k ∈ l.map Prod.fst) :
    ∃ kv, firstWithKey l k = some kv := by
  unfold firstWithKey
  cases hf : l.find? (fun e => decide (e.1 = k)) with
  | some kv => exact ⟨kv, rfl⟩
  | none =>
    rw [List.find?_eq_none] at hf
    rw [List.mem_map] at h
    obtain ⟨e, he, hk⟩ := h
    have := hf e he
    simp [hk] at this

/-- Inserting the elements of a list in order: the stored pairs afterwards are the pairs stored
before and, for every key not stored before, the first pair of the list with that key. -/
theorem insert_sequence :
    ∀ (l : List (K × V)) (acc : HashMap K V), acc.Inv →
      ∃ t : HashMap K V, t.Inv ∧ t.hasher_ = acc.hasher_ ∧
        t.capacity_ ≤ acc.capacity_ * 2 ^ l.length ∧
        (∀ kv, t.Holds kv ↔
          (acc.Holds kv ∨ ((¬ ∃ v, acc.Holds (kv.1, v)) ∧ firstWithKey l kv.1 = some kv))) ∧
        ∀ fuel, acc.capacity_ * 2 ^ l.length * 2 < fuel →
          l.foldlM (fun m e => insert fuel m e) acc = some t := by
  intro l
  induction l with
  | nil =>
    intro acc h
    refine ⟨acc, h, rfl, by simp, ?_, fun _ _ => rfl⟩
    intro kv
    simp [firstWithKey]
  | cons e rest ih =>
    intro acc h
    have hpow : acc.capacity_ * 2 ^ (rest.length + 1) = acc.capacity_ * 2 ^ rest.length * 2 := by
      rw [pow_succ]; ring
    have hone : 1 ≤ 2 ^ rest.length := Nat.one_le_two_pow
    have hmul : acc.capacity_ * 1 ≤ acc.capacity_ * 2 ^ rest.length :=
      Nat.mul_le_mul_left _ hone
    simp only [List.length_cons]
    by_cases hp : ∃ p, p < acc.capacity_ ∧ acc.busy p = true ∧ (acc.slot p).1 = e.1
    · obtain ⟨p, hp1, hb, hk⟩ := hp
      obtain ⟨t, hinv, hhash, hcap, hholds, hrun⟩ := ih acc h
      refine ⟨t, hinv, hhash, by omega, ?_, ?_⟩
      · intro kv
        rw [hholds kv]
        constructor
        · rintro (h1 | ⟨h1, h2⟩)
          · exact Or.inl h1
          · refine Or.inr ⟨h1, ?_⟩
            rw [firstWithKey_cons_ne e rest, h2]
            intro e1
            exact h1 ⟨(acc.slot p).2, p, hp1, hb, by rw [← e1, ← hk]⟩
        · rintro (h1 | ⟨h1, h2⟩)
          · exact Or.inl h1
          · refine Or.inr ⟨h1, ?_⟩
            rw [firstWithKey_cons_ne e rest] at h2
            · exact h2
            · intro e1
              exact h1 ⟨(acc.slot p).2, p, hp1, hb, by rw [← e1, ← hk]⟩
      · intro fuel hf
        rw [List.foldlM_cons, insert_present h e hp1 hb hk fuel (by omega)]
        exact hrun fuel (by omega)
    · have ha : ∀ j, j < acc.capacity_ → acc.busy j = true → (acc.slot j).1 ≠ e.1 :=
        fun j hj hbj hk => hp ⟨j, hj, hbj, hk⟩
      obtain ⟨t2, hinv2, hcap2, -, hhash2, hholds2, hins⟩ := insert_absent h e ha
      have hcap2le : t2.capacity_ ≤ acc.capacity_ * 2 := by
        rw [hcap2]
        split_ifs <;> omega
      have hmul2 : t2.capacity_ * 2 ^ rest.length ≤ acc.capacity_ * 2 * 2 ^ rest.length :=
        Nat.mul_le_mul_right _ hcap2le
      have hcomm : acc.capacity_ * 2 * 2 ^ rest.length = acc.capacity_ * 2 ^ rest.length * 2 := by
        ring
      obtain ⟨t, hinv, hhash, hcap, hholds, hrun⟩ := ih t2 hinv2
      refine ⟨t, hinv, by rw [hhash, hhash2], by omega, ?_, ?_⟩
      · intro kv
        rw [hholds kv, hholds2 kv]
        have hnot : ¬ acc.Holds e := by
          rintro ⟨j, hj, hbj, hs⟩
          exact ha j hj hbj (by rw [hs])
        by_cases hkey : e.1 = kv.1
        · have hfirst : firstWithKey (e :: rest) kv.1 = some e := by
            rw [← hkey]
            exact firstWithKey_cons_eq e rest
          rw [hfirst]
          have hno : ¬ ∃ v, acc.Holds (kv.1, v) := by
            rintro ⟨v, j, hj, hbj, hs⟩
            exact ha j hj hbj (by rw [hs, hkey])
          have hyes : ∃ v, t2.Holds (kv.1, v) ∨ ((kv.1, v) : K × V) = e :=
            ⟨e.2, Or.inr (by rw [← hkey])⟩
          constructor
          · rintro ((h1 | h1) | ⟨h1, -⟩)
            · exact absurd ⟨kv.2, h1⟩ hno
            · exact Or.inr ⟨hno, by rw [h1]⟩
            · exfalso
              apply h1
              obtain ⟨v, hv⟩ := hyes
              refine ⟨e.2, (hholds2 _).2 (Or.inr ?_)⟩
              rw [← hkey]
          · rintro (h1 | ⟨-, h2⟩)
            · exact absurd ⟨kv.2, h1⟩ hno
            · exact Or.inl (Or.inr (Option.some.inj h2).symm)
        · rw [firstWithKey_cons_ne e rest hkey]
          have hne : kv ≠ e := fun e1 => hkey (by rw [e1])
          have hiff : (∃ v, t2.Holds (kv.1, v)) ↔ ∃ v, acc.Holds (kv.1, v) := by
            constructor
            · rintro ⟨v, hv⟩
              rcases (hholds2 _).1 hv with h1 | h1
              · exact ⟨v, h1⟩
              · exact absurd (by rw [← h1]) hkey
            · rintro ⟨v, hv⟩
              exact ⟨v, (hholds2 _).2 (Or.inl hv)⟩
          rw [hiff]
          constructor
          · rintro ((h1 | h1) | h1)
            · exact Or.inl h1
            · exact absurd h1 hne
            · exact Or.inr h1
          · rintro (h1 | h1)
            · exact Or.inl (Or.inl h1)
            · exact Or.inr h1
      · intro fuel hf
        rw [List.foldlM_cons, hins fuel (by omega)]
        exact hrun fuel (by omega)

/-- The number of stored pairs is the number of different stored keys. -/
theorem size_eq_card_keys {t : HashMap K V} (h : t.Inv) (keys : List K)
    (hk : ∀ k, k ∈ keys ↔ ∃ i, i < t.capacity_ ∧ t.busy i = true ∧ (t.slot i).1 = k) :
    t.size_ = keys.dedup.length := by
  have hnd : (((List.range t.capacity_).filter (fun i => t.busy i)).map
      (fun i => (t.slot i).1)).Nodup := by
    apply List.Nodup.map_on
    · intro a ha b hb hab
      rw [List.mem_filter, List.mem_range] at ha hb
      exact h.core.uniq a b ha.1 hb.1 ha.2 hb.2 hab
    · exact (List.nodup_range _).filter _
  have hlen : t.size_ = (((List.range t.capacity_).filter (fun i => t.busy i)).map
      (fun i => (t.slot i).1)).length := by
    rw [List.length_map, h.core.size_eq, ← h.core.wf.busy_len]
    exact (filter_busy_length t.is_busy_).symm
  rw [hlen, ← List.toFinset_card_of_nodup hnd, ← List.card_toFinset]
  congr 1
  ext k
  rw [List.mem_toFinset, List.mem_toFinset, hk k, List.mem_map]
  constructor
  · rintro ⟨i, hi, hki⟩
    rw [List.mem_filter, List.mem_range] at hi
    exact ⟨i, hi.1, hi.2, hki⟩
  · rintro ⟨i, hi, hb, hki⟩
    exact ⟨i, by rw [List.mem_filter, List.mem_range]; exact ⟨hi, hb⟩, hki⟩

/-- C15, construction from a sequence.  For every hash function and every list of pairs, the
constructor returns (with fuel above `2 ^ (length + 3)`) a table whose `size()` is the number of
different keys of the list, in which `find(k)` is, for every key `k` of the list, an iterator
other than `end()` at a slot holding the first pair of the list with key `k`, and `end()` for
every key that is not in the list. -/
theorem construct_from_sequence (hasher : K → Nat) (l : List (K × V)) (fuel : Nat)
    (hfuel : 2 ^ (l.length + 3) < fuel) :
    ∃ t : HashMap K V, construct_from fuel hasher l = some t ∧
      t.size = (l.map Prod.fst).dedup.length ∧
      (∀ k, k ∈ l.map Prod.fst → ∃ kv j, firstWithKey l k = some kv ∧ find fuel t k = some j ∧
        j ≠ t.end_ ∧ t.slot j = kv) ∧
      (∀ k, k ∉ l.map Prod.fst → find fuel t k = some t.end_) := by
  obtain ⟨t, hinv, -, hcap, hholds, hrun⟩ :=
    insert_sequence l (construct hasher : HashMap K V) (Inv.construct hasher)
  have hc4 : (construct hasher : HashMap K V).capacity_ = 4 := rfl
  have hpow : 2 ^ (l.length + 3) = 4 * 2 ^ l.length * 2 := by
    rw [pow_add]; ring
  rw [hc4] at hcap hrun
  have hcf : t.capacity_ ≤ fuel := by omega
  have hfresh : ∀ kv, ¬ (construct hasher : HashMap K V).Holds kv :=
    fun kv => fresh_not_Holds 4 hasher kv
  have hholds1 : ∀ kv, t.Holds kv ↔ firstWithKey l kv.1 = some kv := by
    intro kv
    rw [hholds kv]
    constructor
    · rintro (h1 | ⟨-, h2⟩)
      · exact absurd h1 (hfresh kv)
      · exact h2
    · intro h2
      exact Or.inr ⟨fun ⟨v, hv⟩ => hfresh _ hv, h2⟩
  have hkeys : ∀ k, k ∈ l.map Prod.fst ↔
      ∃ i, i < t.capacity_ ∧ t.busy i = true ∧ (t.slot i).1 = k := by
    intro k
    constructor
    · intro hk
      obtain ⟨kv, hkv⟩ := firstWithKey_of_mem hk
      have hk1 := (firstWithKey_some hkv).2
      obtain ⟨i, hi, hb, hs⟩ := (hholds1 kv).2 (by rw [hk1]; exact hkv)
      exact ⟨i, hi, hb, by rw [hs, hk1]⟩
    · rintro ⟨i, hi, hb, hki⟩
      have := (hholds1 (t.slot i)).1 ⟨i, hi, hb, rfl⟩
      have hmem := (firstWithKey_some this).1
      rw [← hki]
      exact List.mem_map_of_mem _ hmem
  refine ⟨t, hrun fuel (by omega), size_eq_card_keys hinv _ hkeys, ?_, ?_⟩
  · intro k hk
    obtain ⟨kv, hkv⟩ := firstWithKey_of_mem hk
    have hk1 := (firstWithKey_some hkv).2
    obtain ⟨i, hi, hb, hs⟩ := (hholds1 kv).2 (by rw [hk1]; exact hkv)
    refine ⟨kv, i, hkv, find_present hinv hi hb (by rw [hs, hk1]) hcf, ?_, hs⟩
    simp only [end_]
    omega
  · intro k hk
    apply find_absent hinv _ hcf
    intro j hj hbj hkj
    exact hk ((hkeys k).2 ⟨j, hj, hbj, hkj⟩)

end Sequence

/-! ## The growth scenario -/

/-- C13 as amended.  For every hash function, starting from the empty table of capacity 4:
after `insert({1, "a"})` the capacity is 4; `insert({2, "b"})` grows the table to capacity 8,
because 2 exceeds `4 * 0.42`; after `insert({3, "c"})` `size()` is 3 and the capacity is 8;
`insert({4, "d"})` grows the table to capacity 16, because 4 exceeds `8 * 0.42`; afterwards
`size()` is 4 and all four pairs are found by `find`. -/
theorem growth_scenario (hasher : Nat → Nat) (fuel : Nat) (hfuel : 16 < fuel) :
    ∃ t1 t2 t3 t4 : HashMap Nat String,
      insert fuel (construct hasher) (1, "a") = some t1 ∧ t1.capacity_ = 4 ∧
      insert fuel t1 (2, "b") = some t2 ∧ t2.capacity_ = 8 ∧
      insert fuel t2 (3, "c") = some t3 ∧ t3.size = 3 ∧ t3.capacity_ = 8 ∧
      insert fuel t3 (4, "d") = some t4 ∧ t4.capacity_ = 16 ∧ t4.size = 4 ∧
      ∀ kv, kv ∈ [((1 : Nat), "a"), (2, "b"), (3, "c"), (4, "d")] →
        ∃ j, j < t4.capacity_ ∧ find fuel t4 kv.1 = some j ∧ t4.slot j = kv := by
  have h0 : (construct hasher : HashMap Nat String).Inv := Inv.construct hasher
  have hfresh : ∀ kv, ¬ (construct hasher : HashMap Nat String).Holds kv :=
    fun kv => fresh_not_Holds 4 hasher kv
  obtain ⟨t1, hinv1, hcap1, hsize1, -, hholds1, hins1⟩ :=
    insert_absent h0 ((1 : Nat), "a") (fun j hj hb _ => hfresh _ ⟨j, hj, hb, rfl⟩)
  have hc1 : t1.capacity_ = 4 := by rw [hcap1]; rfl
  have hs1 : t1.size_ = 1 := hsize1
  have hk1 : ∀ j, j < t1.capacity_ → t1.busy j = true → (t1.slot j).1 = 1 := by
    intro j hj hb
    rcases (hholds1 _).1 ⟨j, hj, hb, rfl⟩ with h | h
    · exact absurd h (hfresh _)
    · rw [h]
  obtain ⟨t2, hinv2, hcap2, hsize2, -, hholds2, hins2⟩ :=
    insert_absent hinv1 ((2 : Nat), "b") (fun j hj hb hk => by
      have := hk1 j hj hb
      rw [this] at hk
      exact absurd hk (by decide))
  have hc2 : t2.capacity_ = 8 := by rw [hcap2, hs1, hc1]; rfl
  have hs2 : t2.size_ = 2 := by rw [hsize2, hs1]
  have hk2 : ∀ j, j < t2.capacity_ → t2.busy j = true →
      (t2.slot j).1 = 1 ∨ (t2.slot j).1 = 2 := by
    intro j hj hb
    rcases (hholds2 _).1 ⟨j, hj, hb, rfl⟩ with ⟨i, hi, hbi, hsi⟩ | h
    · left; rw [← hsi]; exact hk1 i hi hbi
    · right; rw [h]
  obtain ⟨t3, hinv3, hcap3, hsize3, -, hholds3, hins3⟩ :=
    insert_absent hinv2 ((3 : Nat), "c") (fun j hj hb hk => by
      rcases hk2 j hj hb with h | h <;> rw [h] at hk <;> exact absurd hk (by decide))
  have hc3 : t3.capacity_ = 8 := by rw [hcap3, hs2, hc2]; rfl
  have hs3 : t3.size_ = 3 := by rw [hsize3, hs2]
  have hk3 : ∀ j, j < t3.capacity_ → t3.busy j = true →
      (t3.slot j).1 = 1 ∨ (t3.slot j).1 = 2 ∨ (t3.slot j).1 = 3 := by
    intro j hj hb
    rcases (hholds3 _).1 ⟨j, hj, hb, rfl⟩ with ⟨i, hi, hbi, hsi⟩ | h
    · rcases hk2 i hi hbi with h1 | h1
      · left; rw [← hsi]; exact h1
      · right; left; rw [← hsi]; exact h1
    · right; right; rw [h]
  obtain ⟨t4, hinv4, hcap4, hsize4, -, hholds4, hins4⟩ :=
    insert_absent hinv3 ((4 : Nat), "d") (fun j hj hb hk => by
      rcases hk3 j hj hb with h | h | h <;> rw [h] at hk <;> exact absurd hk (by decide))
  have hc4 : t4.capacity_ = 16 := by rw [hcap4, hs3, hc3]; rfl
  have hs4 : t4.size_ = 4 := by rw [hsize4, hs3]
  refine ⟨t1, t2, t3, t4, hins1 fuel (by change 4 * 2 < fuel; omega), hc1,
    hins2 fuel (by rw [hc1]; omega), hc2, hins3 fuel (by rw [hc2]; omega), hs3, hc3,
    hins4 fuel (by rw [hc3]; omega), hc4, hs4, ?_⟩
  intro kv hkv
  have hh : t4.Holds kv := by
    simp only [List.mem_cons, List.mem_singleton, List.not_mem_nil, or_false] at hkv
    rw [hholds4, hholds3, hholds2, hholds1]
    tauto
  obtain ⟨j, hj, hb, hs⟩ := hh
  exact ⟨j, hj, find_present hinv4 hj hb (by rw [hs]) (by rw [hc4]; omega), hs⟩

/-! ## Copies -/

/-- A loop that assigns `g i` at every marked index `i` of a list of indices. -/
theorem foldl_set_getD {β : Type} (b : Nat → Bool) (g : Nat → β) (d : β) :
    ∀ (is : List Nat) (l : List β),
      (is.foldl (fun acc i => if b i then acc.set i (g i) else acc) l).length = l.length ∧
      ∀ j, (is.foldl (fun acc i => if b i then acc.set i (g i) else acc) l).getD j d =
        if j ∈ is ∧ b j = true ∧ j < l.length then g j else l.getD j d := by
  intro is
  induction is with
  | nil => intro l; simp
  | cons i is ih =>
    intro l
    rw [List.foldl_cons]
    by_cases hb : b i = true
    · simp only [hb, if_true]
      obtain ⟨h1, h2⟩ := ih (l.set i (g i))
      refine ⟨by rw [h1, List.length_set], ?_⟩
      intro j
      rw [h2 j, getD_set_eq, List.length_set]
      simp only [List.mem_cons]
      by_cases hji : j = i
      · subst hji
        by_cases hlt : j < l.length
        · simp [hb, hlt]
        · simp [hlt, List.getD_eq_default _ _ (Nat.le_of_not_lt hlt)]
      · simp [hji]
    · simp only [hb, Bool.false_eq_true, if_false]
      obtain ⟨h1, h2⟩ := ih l
      refine ⟨h1, ?_⟩
      intro j
      rw [h2 j]
      simp only [List.mem_cons]
      by_cases hji : j = i
      · subst hji
        simp [hb]
      · simp [hji]

/-- The loop of the copy constructor treats the two vectors independently. -/
theorem foldl_pair {α β : Type} (b : Nat → Bool) (f : Nat → α) (g : Nat → β) :
    ∀ (is : List Nat) (l1 : List α) (l2 : List β),
      is.foldl (fun (acc : List α × List β) i =>
          if b i then (acc.1.set i (f i), acc.2.set i (g i)) else acc) (l1, l2) =
        (is.foldl (fun acc i => if b i then acc.set i (f i) else acc) l1,
          is.foldl (fun acc i => if b i then acc.set i (g i) else acc) l2) := by
  intro is
  induction is with
  | nil => intro l1 l2; rfl
  | cons i is ih =>
    intro l1 l2
    simp only [List.foldl_cons]
    by_cases hb : b i = true
    · simp only [hb, if_true]
      exact ih _ _
    · simp only [hb, Bool.false_eq_true, if_false]
      exact ih _ _

theorem busy_lt (t : HashMap K V) (hw : t.WF) {j : Nat} (hb : t.busy j = true) :
    j < t.capacity_ := by
  by_contra hlt
  unfold busy at hb
  rw [List.getD_eq_default _ _ (by rw [hw.busy_len]; omega)] at hb
  exact Bool.noConfusion hb

section Copy

variable [Inhabited K] [Inhabited V]

/-- What the loop of the copy constructor leaves in the two vectors. -/
theorem copy_slots_spec (t : HashMap K V) (hw : t.WF) :
    t.copy_slots.1.length = t.capacity_ ∧ t.copy_slots.2.length = t.capacity_ ∧
    (∀ j, t.copy_slots.1.getD j false = t.busy j) ∧
    (∀ j, t.busy j = true → t.copy_slots.2.getD j default = t.slot j) := by
  have hpair := foldl_pair (fun i => t.busy i) (fun _ => true) (fun i => t.slot i)
    (List.range t.capacity_) (List.replicate t.capacity_ false)
    (List.replicate t.capacity_ (default : K × V))
  have h1 := foldl_set_getD (fun i => t.busy i) (fun _ => true) false
    (List.range t.capacity_) (List.replicate t.capacity_ false)
  have h2 := foldl_set_getD (fun i => t.busy i) (fun i => t.slot i) (default : K × V)
    (List.range t.capacity_) (List.replicate t.capacity_ (default : K × V))
  have he : t.copy_slots =
      ((List.range t.capacity_).foldl
          (fun acc i => if t.busy i then acc.set i true else acc)
          (List.replicate t.capacity_ false),
        (List.range t.capacity_).foldl
          (fun acc i => if t.busy i then acc.set i (t.slot i) else acc)
          (List.replicate t.capacity_ (default : K × V))) := hpair
  rw [he]
  simp only [List.length_replicate, List.mem_range] at h1 h2
  refine ⟨h1.1, h2.1, ?_, ?_⟩
  · intro j
    rw [h1.2 j, getD_replicate_false]
    by_cases hb : t.busy j = true
    · simp [hb, busy_lt t hw hb]
    · simp [hb]
  · intro j hb
    rw [h2.2 j]
    simp [hb, busy_lt t hw hb]

/-- The copy has the members of the original, up to the pairs of the slots that are free. -/
theorem copy_spec (t : HashMap K V) (hw : t.WF) :
    (copy t).capacity_ = t.capacity_ ∧ (copy t).size_ = t.size_ ∧
    (copy t).hasher_ = t.hasher_ ∧ (copy t).is_busy_.length = t.capacity_ ∧
    (copy t).data_.length = t.capacity_ ∧ (∀ j, (copy t).busy j = t.busy j) ∧
    (∀ j, t.busy j = true → (copy t).slot j = t.slot j) := by
  obtain ⟨h1, h2, h3, h4⟩ := copy_slots_spec t hw
  exact ⟨rfl, rfl, rfl, h1, h2, h3, h4⟩

end Copy

section CopyFind

variable [DecidableEq K] [Inhabited K] [Inhabited V]

/-- The loop of `find` reads the pairs of occupied slots only. -/
theorem findLoop_congr {t t1 : HashMap K V} (hcap : t1.capacity_ = t.capacity_)
    (hbusy : ∀ j, t1.busy j = t.busy j)
    (hslot : ∀ j, t.busy j = true → t1.slot j = t.slot j) (k : K) :
    ∀ fuel i, findLoop fuel t1 k i = findLoop fuel t k i := by
  intro fuel
  induction fuel with
  | zero => intro i; rfl
  | succ f ih =>
    intro i
    rw [findLoop, findLoop, hbusy i, hcap]
    by_cases hb : t.busy i = true
    · simp only [hb, if_true, hslot i hb]
      rw [ih]
    · simp only [hb, Bool.false_eq_true, if_false, end_, hcap]

/-- An iterator other than `end()` that the loop of `find` returns is at an occupied slot that
holds the key. -/
theorem findLoop_sound (t : HashMap K V) (k : K) :
    ∀ fuel i r, findLoop fuel t k i = some r →
      r = t.end_ ∨ (t.busy r = true ∧ (t.slot r).1 = k) := by
  intro fuel
  induction fuel with
  | zero =>
    intro i r h
    simp [findLoop] at h
  | succ f ih =>
    intro i r h
    rw [findLoop] at h
    split_ifs at h with hb hk
    · cases h
      exact Or.inr ⟨hb, hk.symm⟩
    · exact ih _ _ h
    · cases h
      exact Or.inl rfl

/-- C16, copy preserves the table.  The copy of a reachable table, made by the copy constructor
or by `operator=`, has the capacity, the size and the hash function of the original, vectors of
`capacity_` entries, the same occupancy marker at every index and the same pair at every
occupied index, so nothing was compacted or rehashed; `find(k)` returns for every key the same
bucket id in the copy as in the original, and the slot it points to holds the same pair.
Assignment of a table to itself returns it as it is. -/
theorem copy_preserves (hasher : K → Nat) (t : HashMap K V) (hr : Reachable hasher t) :
    (copy t).capacity_ = t.capacity_ ∧ (copy t).size = t.size ∧
    (copy t).hasher_ = t.hasher_ ∧ (copy t).is_busy_.length = t.capacity_ ∧
    (copy t).data_.length = t.capacity_ ∧ (∀ i, (copy t).busy i = t.busy i) ∧
    (∀ i, t.busy i = true → (copy t).slot i = t.slot i) ∧
    (∀ (fuel : Nat) (k : K), find fuel (copy t) k = find fuel t k) ∧
    (∀ (fuel : Nat) (k : K) (i : Nat), find fuel t k = some i → i ≠ t.end_ →
      (copy t).slot i = t.slot i) ∧
    (∀ this : HashMap K V, operator_assign this t false = copy t) ∧
    operator_assign t t true = t := by
  have hw := hr.inv.1.core.wf
  obtain ⟨h1, h2, h3, h4, h5, h6, h7⟩ := copy_spec t hw
  refine ⟨h1, h2, h3, h4, h5, h6, h7, ?_, ?_, fun _ => rfl, rfl⟩
  · intro fuel k
    unfold find
    rw [h3, h1]
    exact findLoop_congr h1 h6 h7 k fuel _
  · intro fuel k i hf hne
    rcases findLoop_sound t k fuel _ i hf with h | h
    · exact absurd h hne
    · exact h7 i h.1

end CopyFind

/-! ## The later claims at concrete tables -/

theorem load_bound_witness :
    (∀ (e : Nat × Nat) (fuel : Nat), exampleTable.capacity_ * 2 < fuel →
      ∃ t1, insert fuel exampleTable e = some t1) ∧
    (∀ (e : Nat × Nat) (fuel : Nat) (t1 : HashMap Nat Nat), insert fuel exampleTable e = some t1 →
      50 * t1.size ≤ 21 * t1.capacity_ ∧ t1.size ≤ 21 * t1.capacity_ / 50) ∧
    50 * (construct exampleHash : HashMap Nat Nat).size ≤
      21 * (construct exampleHash : HashMap Nat Nat).capacity_ ∧
    50 * exampleTable.size ≤ 21 * exampleTable.capacity_ ∧
    (∀ (k : Nat) (fuel : Nat) (t1 : HashMap Nat Nat), erase fuel exampleTable k = some t1 →
      50 * t1.size ≤ 21 * t1.capacity_) ∧
    50 * (clear exampleTable).size ≤ 21 * (clear exampleTable).capacity_ ∧
    50 * (copy exampleTable).size ≤ 21 * (copy exampleTable).capacity_ :=
  load_bound exampleHash exampleTable exampleTable_reachable

theorem capacity_shape_witness :
    (∃ n : Nat, exampleTable.capacity_ = BEGIN_CAPACITY * 2 ^ n) ∧
      exampleTable.data_.length = exampleTable.capacity_ ∧
      exampleTable.is_busy_.length = exampleTable.capacity_ :=
  capacity_shape exampleHash exampleTable exampleTable_reachable

/-- C13 as stated fails.  With the hash function `exampleIdHash`, after the inserts of the keys
1, 2, 3 the size is 3 and the capacity is already 8, and the insert of key 4 returns a table of
capacity 16, not 8. -/
theorem growth_scenario_counterexample :
    (construct_from 33 exampleIdHash [(1, "a"), (2, "b"), (3, "c")]).map
        (fun t => (t.size, t.capacity_)) = some (3, 8) ∧
    ((construct_from 33 exampleIdHash [(1, "a"), (2, "b"), (3, "c")]).bind
        (fun t => insert 33 t (4, "d"))).map (fun t => t.capacity_) = some 16 ∧
    ((construct_from 33 exampleIdHash [(1, "a"), (2, "b"), (3, "c")]).bind
        (fun t => insert 33 t (4, "d"))).map (fun t => t.capacity_) ≠ some 8 := by
  decide

theorem growth_scenario_witness :
    ∃ t1 t2 t3 t4 : HashMap Nat String,
      insert 33 (construct exampleIdHash) (1, "a") = some t1 ∧ t1.capacity_ = 4 ∧
      insert 33 t1 (2, "b") = some t2 ∧ t2.capacity_ = 8 ∧
      insert 33 t2 (3, "c") = some t3 ∧ t3.size = 3 ∧ t3.capacity_ = 8 ∧
      insert 33 t3 (4, "d") = some t4 ∧ t4.capacity_ = 16 ∧ t4.size = 4 ∧
      ∀ kv, kv ∈ [((1 : Nat), "a"), (2, "b"), (3, "c"), (4, "d")] →
        ∃ j, j < t4.capacity_ ∧ find 33 t4 kv.1 = some j ∧ t4.slot j = kv :=
  growth_scenario exampleIdHash 33 (by decide)

/-- C14 as stated fails.  The table `exampleTable` is reachable and has capacity 8; `clear`
returns a table of capacity 4. -/
theorem capacity_never_shrinks_counterexample :
    Reachable exampleHash exampleTable ∧
      ¬ (exampleTable.capacity_ ≤ (clear exampleTable).capacity_) :=
  ⟨exampleTable_reachable, by decide⟩

theorem capacity_after_operations_witness :
    (∀ (e : Nat × Nat) (fuel : Nat) (t1 : HashMap Nat Nat), insert fuel exampleTable e = some t1 →
      exampleTable.capacity_ ≤ t1.capacity_ ∧
        (t1.capacity_ = exampleTable.capacity_ ∨ t1.capacity_ = exampleTable.capacity_ * 2)) ∧
    (∀ (k : Nat) (fuel : Nat) (t1 : HashMap Nat Nat), erase fuel exampleTable k = some t1 →
      t1.capacity_ = exampleTable.capacity_) ∧
    (∀ (k : Nat) (fuel found : Nat) (t1 : HashMap Nat Nat),
      operator_index fuel exampleTable k = some (t1, found) →
      exampleTable.capacity_ ≤ t1.capacity_ ∧
        (t1.capacity_ = exampleTable.capacity_ ∨ t1.capacity_ = exampleTable.capacity_ * 2)) ∧
    (clear exampleTable).capacity_ = BEGIN_CAPACITY ∧
      (clear exampleTable).capacity_ ≤ exampleTable.capacity_ :=
  capacity_after_operations exampleHash exampleTable exampleTable_reachable

theorem construct_from_sequence_witness :
    ∃ t : HashMap Nat Nat,
      construct_from 65 exampleHash [(1, 10), (2, 20), (1, 30)] = some t ∧
      t.size = ([((1 : Nat), (10 : Nat)), (2, 20), (1, 30)].map Prod.fst).dedup.length ∧
      (∀ k, k ∈ [((1 : Nat), (10 : Nat)), (2, 20), (1, 30)].map Prod.fst →
        ∃ kv j, firstWithKey [((1 : Nat), (10 : Nat)), (2, 20), (1, 30)] k = some kv ∧
          find 65 t k = some j ∧ j ≠ t.end_ ∧ t.slot j = kv) ∧
      (∀ k, k ∉ [((1 : Nat), (10 : Nat)), (2, 20), (1, 30)].map Prod.fst →
        find 65 t k = some t.end_) :=
  construct_from_sequence exampleHash [(1, 10), (2, 20), (1, 30)] 65 (by decide)

theorem copy_preserves_witness :
    (copy exampleTable).capacity_ = exampleTable.capacity_ ∧
    (copy exampleTable).size = exampleTable.size ∧
    (copy exampleTable).hasher_ = exampleTable.hasher_ ∧
    (copy exampleTable).is_busy_.length = exampleTable.capacity_ ∧
    (copy exampleTable).data_.length = exampleTable.capacity_ ∧
    (∀ i, (copy exampleTable).busy i = exampleTable.busy i) ∧
    (∀ i, exampleTable.busy i = true → (copy exampleTable).slot i = exampleTable.slot i) ∧
    (∀ (fuel : Nat) (k : Nat), find fuel (copy exampleTable) k = find fuel exampleTable k) ∧
    (∀ (fuel : Nat) (k : Nat) (i : Nat), find fuel exampleTable k = some i →
      i ≠ exampleTable.end_ → (copy exampleTable).slot i = exampleTable.slot i) ∧
    (∀ this : HashMap Nat Nat, operator_assign this exampleTable false = copy exampleTable) ∧
    operator_assign exampleTable exampleTable true = exampleTable :=
  copy_preserves exampleHash exampleTable exampleTable_reachable

theorem closed_hashing_witness :
    exampleTable.busy 1 = true ∧
    ((∀ m, m ≤ exampleTable.DistanceToHash (exampleTable.slot 1).1 1 →
      exampleTable.busy
        ((exampleTable.hasher_ (exampleTable.slot 1).1 % exampleTable.capacity_ + m) %
          exampleTable.capacity_) = true) ∧
    (exampleTable.hasher_ (exampleTable.slot 1).1 % exampleTable.capacity_ +
      exampleTable.DistanceToHash (exampleTable.slot 1).1 1) % exampleTable.capacity_ = 1 ∧
    (∀ j, j < exampleTable.capacity_ →
      fwd exampleTable.capacity_ j 1 ≤ exampleTable.DistanceToHash (exampleTable.slot 1).1 1 →
      exampleTable.busy j = true) ∧
    exampleTable.hasher_ = exampleHash) :=
  ⟨rfl, closed_hashing exampleHash exampleTable exampleTable_reachable 1 (by decide) rfl⟩

theorem size_bookkeeping_witness :
    exampleTable.size =
      ((List.range exampleTable.capacity_).filter (fun i => exampleTable.busy i)).length ∧
    exampleTable.size = exampleTable.is_busy_.count true ∧ 0 ≤ exampleTable.size ∧
    exampleTable.size < exampleTable.capacity_ ∧
    (∃ e, e < exampleTable.capacity_ ∧ exampleTable.busy e = false) ∧
    (∀ k : Nat, ∃ r, find exampleTable.capacity_ exampleTable k = some r) ∧
    (∀ e : Nat × Nat, ∃ r, insertLoop exampleTable.capacity_ exampleTable e
      (exampleTable.hasher_ e.1 % exampleTable.capacity_) = some r) ∧
    (∀ k : Nat, ∃ r, eraseLoop exampleTable.capacity_ exampleTable k
      (exampleTable.hasher_ k % exampleTable.capacity_) = some r) ∧
    (∀ k : Nat, ∃ t1, erase exampleTable.capacity_ exampleTable k = some t1) :=
  size_bookkeeping exampleHash exampleTable exampleTable_reachable

theorem robin_hood_ordering_witness :
    (exampleTable.busy 0 = true ∧ exampleTable.busy ((0 + 1) % exampleTable.capacity_) = true) ∧
    (exampleTable.probeDistance (exampleTable.slot ((0 + 1) % exampleTable.capacity_)).1
        ((0 + 1) % exampleTable.capacity_) ≤
      exampleTable.probeDistance (exampleTable.slot 0).1 0 + 1 ∧
    ∀ (key : Nat) (j : Nat), j < exampleTable.capacity_ →
      exampleTable.probeDistance key j = exampleTable.DistanceToHash key j) :=
  ⟨⟨rfl, rfl⟩,
    robin_hood_ordering exampleHash exampleTable exampleTable_reachable 0 (by decide) rfl rfl⟩

end HashMap
